import Mathlib

/-!
Verification of the eigenein/raytracer core against its specification.

The development shallowly embeds the parts of the Rust source that the
claims concern:

* `src/math/vec3.rs` — vectors, `reflect_about`, `sample_unit_vector`,
  `is_infinite`;
* `src/math/aabb.rs` — axis-aligned boxes and the slab intersection test;
* `src/math/ray.rs` — rays (the constructor normalizes the direction);
* `src/surface/sphere.rs`, `src/surface/triangle.rs`, `src/surface/fog.rs`
  — the three surface kinds;
* `src/physics/optics/material/transmittance/refraction.rs` — the Schlick
  reflectance;
* `src/tracer.rs` — the bounce loop and the three scatter branches;
* `src/tracer/bvh.rs` — BVH build and query.

Machine floats (`f64`) are idealized.  Where infinities and NaN genuinely
flow through the code (the AABB slab test, whose inputs may contain
`±inf` and whose divisions may produce `inf` or NaN), coordinates are
modelled by the four-point extension `Flt α` of an ordered field, with
the IEEE-754 rules for `-`, `/`, comparison, and with the NaN-dropping
`f64::min` / `f64::max` of Rust.  Negative zero is not modelled: division
by zero follows the `+0` sign rules.  Everywhere else (ray geometry, the
tracer) coordinates are plain field elements, and the analytic functions
`sqrt`, `exp`, `ln`, `sin`, `cos` of `f64` are the exact real ones.

Random sequences (`Sequence<f64>`, `Sequence<Vec2>` of
`src/math/sequence.rs`) are modelled as functions from a cursor index to
the produced sample; a mutable sequence handle is an index threaded
through the computation, which makes the sample stream explicit.
-/

/-- Model of an `f64` value: a finite scalar, one of the two infinities, or NaN.
NaN carries no sign or payload. -/
inductive Flt (α : Type) where
  | nan : Flt α
  | ninf : Flt α
  | fin (x : α) : Flt α
  | pinf : Flt α
  deriving DecidableEq

/-- Model of `f64::is_infinite` (false on NaN and on finite values). -/
def Flt.isInf : Flt α → Bool
  | .ninf => true
  | .pinf => true
  | _ => false

/-- Strict `<` of IEEE-754: any comparison with NaN is false. -/
def Flt.blt [LinearOrder α] : Flt α → Flt α → Bool
  | .nan, _ => false
  | _, .nan => false
  | .ninf, .ninf => false
  | .ninf, _ => true
  | _, .ninf => false
  | .pinf, _ => false
  | .fin _, .pinf => true
  | .fin a, .fin b => decide (a < b)

/-- Non-strict `<=` of IEEE-754: any comparison with NaN is false. -/
def Flt.ble [LinearOrder α] : Flt α → Flt α → Bool
  | .nan, _ => false
  | _, .nan => false
  | .ninf, _ => true
  | _, .ninf => false
  | _, .pinf => true
  | .pinf, _ => false
  | .fin a, .fin b => decide (a ≤ b)

/-- Model of Rust `f64::max`: drops a NaN argument, otherwise the larger value. -/
def Flt.fmax [LinearOrder α] : Flt α → Flt α → Flt α
  | .nan, b => b
  | a, .nan => a
  | a, b => if Flt.blt a b then b else a

/-- Model of Rust `f64::min`: drops a NaN argument, otherwise the smaller value. -/
def Flt.fmin [LinearOrder α] : Flt α → Flt α → Flt α
  | .nan, b => b
  | a, .nan => a
  | a, b => if Flt.blt b a then b else a

/-- Subtraction on extended values, IEEE-754 rules (`inf - inf = NaN`). -/
def Flt.sub [Sub α] : Flt α → Flt α → Flt α
  | .nan, _ => .nan
  | _, .nan => .nan
  | .pinf, .pinf => .nan
  | .pinf, _ => .pinf
  | .ninf, .ninf => .nan
  | .ninf, _ => .ninf
  | .fin _, .pinf => .ninf
  | .fin _, .ninf => .pinf
  | .fin a, .fin b => .fin (a - b)

/-- Addition on extended values, IEEE-754 rules (`inf + (-inf) = NaN`). -/
def Flt.add [Add α] : Flt α → Flt α → Flt α
  | .nan, _ => .nan
  | _, .nan => .nan
  | .pinf, .ninf => .nan
  | .pinf, _ => .pinf
  | .ninf, .pinf => .nan
  | .ninf, _ => .ninf
  | .fin _, .pinf => .pinf
  | .fin _, .ninf => .ninf
  | .fin a, .fin b => .fin (a + b)

/-- Division of an extended value by a finite scalar, IEEE-754 rules with a
positive zero divisor: `x / 0` is `±inf` by the sign of `x`, and `0 / 0` is
NaN.  Negative zero is not modelled. -/
def Flt.divF [LinearOrderedField α] : Flt α → α → Flt α
  | .nan, _ => .nan
  | .pinf, b => if b = 0 then .pinf else if 0 < b then .pinf else .ninf
  | .ninf, b => if b = 0 then .ninf else if 0 < b then .ninf else .pinf
  | .fin a, b =>
    if b = 0 then (if 0 < a then .pinf else if a < 0 then .ninf else .nan)
    else .fin (a / b)

/-- Total order used by Rust `f64::total_cmp`, restricted to a `<=` test.
NaN sorts above `+inf` (the positive-NaN convention; NaN signs are not
modelled). -/
def Flt.btotalLe [LinearOrder α] : Flt α → Flt α → Bool
  | _, .nan => true
  | .nan, _ => false
  | a, b => Flt.ble a b

/-- A plain 3-vector over the scalar `α`, modelling `Vec3` of
`src/math/vec3.rs` at points where all components are finite. -/
structure V3 (α : Type) where
  x : α
  y : α
  z : α
  deriving DecidableEq

/-- Componentwise sum, from `impl Add for Vec3`. -/
def V3.add [Add α] (a b : V3 α) : V3 α := ⟨a.x + b.x, a.y + b.y, a.z + b.z⟩

/-- Componentwise difference, from `impl Sub for Vec3`. -/
def V3.sub [Sub α] (a b : V3 α) : V3 α := ⟨a.x - b.x, a.y - b.y, a.z - b.z⟩

/-- Componentwise negation, from `impl Neg for Vec3`. -/
def V3.neg [Neg α] (a : V3 α) : V3 α := ⟨-a.x, -a.y, -a.z⟩

/-- Scalar multiple, from `impl Mul<f64> for Vec3`. -/
def V3.smul [Mul α] (a : V3 α) (c : α) : V3 α := ⟨a.x * c, a.y * c, a.z * c⟩

/-- Scalar division, from `impl Div<f64> for Vec3`. -/
def V3.divC [Div α] (a : V3 α) (c : α) : V3 α := ⟨a.x / c, a.y / c, a.z / c⟩

/-- Dot product, from `Vec3::dot`. -/
def V3.dot [Add α] [Mul α] (a b : V3 α) : α := a.x * b.x + a.y * b.y + a.z * b.z

/-- Cross product, from `Vec3::cross`. -/
def V3.cross [Sub α] [Mul α] (a b : V3 α) : V3 α :=
  ⟨a.y * b.z - b.y * a.z, a.z * b.x - b.z * a.x, a.x * b.y - b.x * a.y⟩

/-- Squared length, from `Vec3::length_squared`. -/
def V3.lengthSquared [Add α] [Mul α] (a : V3 α) : α := a.dot a

/-- Length of a real vector, from `Vec3::length` (`sqrt` is exact). -/
noncomputable def V3.length (a : V3 ℝ) : ℝ := Real.sqrt a.lengthSquared

/-- Normalization of a real vector, from `Vec3::normalize` (`self / self.length()`). -/
noncomputable def V3.normalize (a : V3 ℝ) : V3 ℝ := a.divC a.length

/-- Reflection about a normal, from `Vec3::reflect_about`:
`self - 2.0 * self.dot(normal) * normal`.  The runtime assertion that the
normal is a unit vector is not modelled; the theorems hypothesize it. -/
def V3.reflectAbout [Field α] (v n : V3 α) : V3 α :=
  v.sub (n.smul (2 * v.dot n))

/-- An extended 3-vector whose components may be infinite or NaN, modelling
`Vec3` where the AABB code manipulates it. -/
structure EV3 (α : Type) where
  x : Flt α
  y : Flt α
  z : Flt α
  deriving DecidableEq

/-- Embed a finite vector. -/
def EV3.ofV3 (v : V3 α) : EV3 α := ⟨.fin v.x, .fin v.y, .fin v.z⟩

/-- Componentwise `f64::max`, from `Vec3::max`. -/
def EV3.fmax [LinearOrder α] (a b : EV3 α) : EV3 α :=
  ⟨a.x.fmax b.x, a.y.fmax b.y, a.z.fmax b.z⟩

/-- Componentwise `f64::min`, from `Vec3::min`. -/
def EV3.fmin [LinearOrder α] (a b : EV3 α) : EV3 α :=
  ⟨a.x.fmin b.x, a.y.fmin b.y, a.z.fmin b.z⟩

/-- Largest component, from `Vec3::max_element` (`self.x.max(self.y.max(self.z))`). -/
def EV3.maxElement [LinearOrder α] (a : EV3 α) : Flt α := a.x.fmax (a.y.fmax a.z)

/-- Smallest component, from `Vec3::min_element`. -/
def EV3.minElement [LinearOrder α] (a : EV3 α) : Flt α := a.x.fmin (a.y.fmin a.z)

/-- Componentwise difference of an extended vector and a finite vector. -/
def EV3.subV [Sub α] (a : EV3 α) (b : V3 α) : EV3 α :=
  ⟨a.x.sub (.fin b.x), a.y.sub (.fin b.y), a.z.sub (.fin b.z)⟩

/-- Componentwise difference of two extended vectors, from `impl Sub for Vec3`. -/
def EV3.subE [Sub α] (a b : EV3 α) : EV3 α := ⟨a.x.sub b.x, a.y.sub b.y, a.z.sub b.z⟩

/-- Componentwise sum of two extended vectors, from `impl Add for Vec3`. -/
def EV3.addE [Add α] (a b : EV3 α) : EV3 α := ⟨a.x.add b.x, a.y.add b.y, a.z.add b.z⟩

/-- Componentwise division by a finite vector, from `impl Div for Vec3`. -/
def EV3.divV [LinearOrderedField α] (a : EV3 α) (b : V3 α) : EV3 α :=
  ⟨a.x.divF b.x, a.y.divF b.y, a.z.divF b.z⟩

/-- Componentwise division by a finite scalar, from `impl Div<f64> for Vec3`. -/
def EV3.divC [LinearOrderedField α] (a : EV3 α) (c : α) : EV3 α :=
  ⟨a.x.divF c, a.y.divF c, a.z.divF c⟩

/-- Model of `Vec3::is_infinite`: true when ANY single component is
infinite (`||` in the source). -/
def EV3.isInfinite (a : EV3 α) : Bool := a.x.isInf || a.y.isInf || a.z.isInf

/-- A ray with finite origin and direction, from `src/math/ray.rs`. -/
structure RayG (α : Type) where
  origin : V3 α
  direction : V3 α
  deriving DecidableEq

/-- Point along a ray, from `Ray::at` (`origin + direction * distance`). -/
def RayG.at [Add α] [Mul α] (r : RayG α) (distance : α) : V3 α :=
  r.origin.add (r.direction.smul distance)

/-- Model of `Ray::new` over the reals: the stored direction is NORMALIZED
by the constructor. -/
noncomputable def RayG.make (origin direction : V3 ℝ) : RayG ℝ := ⟨origin, direction.normalize⟩

/-- A half-open distance range, modelling `Range<f64>`.  Both endpoints are
extended values because the tracer uses `min_hit_distance..f64::INFINITY`. -/
structure DRange (α : Type) where
  start : Flt α
  stop : Flt α
  deriving DecidableEq

/-- Model of `Range::<f64>::contains` at a finite candidate:
`start <= t && t < end` with IEEE comparisons. -/
def DRange.containsF [LinearOrder α] (r : DRange α) (t : α) : Bool :=
  r.start.ble (.fin t) && (Flt.fin t).blt r.stop

/-- An axis-aligned box, from `src/math/aabb.rs`.  Components may be
infinite (the unbounded fog box). -/
structure Aabb (α : Type) where
  minPoint : EV3 α
  maxPoint : EV3 α
  deriving DecidableEq

/-- Union of two boxes, from `impl BitOr for Aabb`. -/
def Aabb.join [LinearOrder α] (a b : Aabb α) : Aabb α :=
  ⟨a.minPoint.fmin b.minPoint, a.maxPoint.fmax b.maxPoint⟩

/-- Box size, from `Aabb::size` (`max_point - min_point`). -/
def Aabb.size [Sub α] (a : Aabb α) : EV3 α := a.maxPoint.subE a.minPoint

/-- Box center, from `Aabb::center` (`min_point + size / 2`). -/
def Aabb.center [LinearOrderedField α] (a : Aabb α) : EV3 α :=
  a.minPoint.addE (a.size.divC 2)

/-- Exit distance of the slab test of `Aabb::hit`: the smallest component
of the componentwise larger plane distances, clamped above by the range
end (`.min_element().min(distance_range.end)`). -/
def Aabb.slabExit [LinearOrderedField α] (a : Aabb α) (ray : RayG α) (range : DRange α) :
    Flt α :=
  ((((a.minPoint.subV ray.origin).divV ray.direction).fmax
    ((a.maxPoint.subV ray.origin).divV ray.direction)).minElement).fmin range.stop

/-- Entry distance of the slab test of `Aabb::hit`: the largest component
of the componentwise smaller plane distances, clamped below by the range
start (`.max_element().max(distance_range.start)`). -/
def Aabb.slabEnter [LinearOrderedField α] (a : Aabb α) (ray : RayG α) (range : DRange α) :
    Flt α :=
  ((((a.minPoint.subV ray.origin).divV ray.direction).fmin
    ((a.maxPoint.subV ray.origin).divV ray.direction)).maxElement).fmax range.start

/-- The slab intersection test, from `Aabb::hit`.  Returns the entry and
exit distances clamped to the query range, `none` on a miss (exit distance
negative, or entry past exit).  The special case for a box whose `min` and
`max` are BOTH infinite (per `Vec3::is_infinite`, which is true when any
one component is infinite) returns the query range unchanged.  The source
computes the exit distance before the entry distance; naming the two here
changes nothing observable. -/
def Aabb.hit [LinearOrderedField α] (a : Aabb α) (ray : RayG α) (range : DRange α) :
    Option (Flt α × Flt α) :=
  if a.minPoint.isInfinite && a.maxPoint.isInfinite then
    some (range.start, range.stop)
  else if (a.slabExit ray range).blt (.fin 0) then none
  else if (a.slabEnter ray range).ble (a.slabExit ray range) then
    some (a.slabEnter ray range, a.slabExit ray range)
  else none

/-- A 2-D sample, from `src/math/vec2.rs`. -/
structure V2 (α : Type) where
  x : α
  y : α
  deriving DecidableEq

/-- Model of `Vec3::sample_unit_vector` applied to one 2-D sample:
`theta = TAU * x`, `z = 2 * y - 1`, `scale = sqrt(1 - z * z)`, giving
`(scale * cos theta, scale * sin theta, z)`. -/
noncomputable def sampleUnitVector (sample : V2 ℝ) : V3 ℝ :=
  let theta := 2 * Real.pi * sample.x
  let z := 2 * sample.y - 1
  let scale := Real.sqrt (1 - z * z)
  ⟨scale * Real.cos theta, scale * Real.sin theta, z⟩

/-- Hit classification, from `src/physics/optics/hit.rs`.  The snapshot of
`src/math/hit.rs` that `src/tracer.rs` compiles against has only `Enter`
and `Leave`; `Refract` is the variant the specification assigns to thin
scatterers (triangle, fog). -/
inductive HitType where
  | enter : HitType
  | leave : HitType
  | refract : HitType
  deriving DecidableEq

/-- Reflectance, from `src/physics/optics/material/reflectance.rs`.  The
spectral attenuation property is abstracted to its evaluation function
`wavelength -> scalar` (the claims never inspect the property variants). -/
structure Reflectance where
  attenuation : ℝ → ℝ
  fuzz : Option ℝ
  diffusion : Option ℝ

/-- Transmittance, from `src/physics/optics/material/transmittance.rs`,
with the two absolute refractive indices and the attenuation coefficient
abstracted to their evaluation functions at a wavelength. -/
structure Transmittance where
  incidentIndex : ℝ → ℝ
  refractedIndex : ℝ → ℝ
  attenuationCoefficient : ℝ → ℝ

/-- Optical material, from `src/physics/optics/material.rs`.  Emittance is
abstracted to its evaluation function at a wavelength. -/
structure Material where
  reflectance : Option Reflectance
  transmittance : Option Transmittance
  emittance : Option (ℝ → ℝ)

/-- Hit record, from `src/math/hit.rs`. -/
structure Hit where
  location : V3 ℝ
  normal : V3 ℝ
  distance : ℝ
  type_ : HitType
  material : Material

/-- Relative refractive index at an interface, from
`src/physics/optics/material/transmittance/refraction.rs`. -/
structure RelativeRefractiveIndex where
  incident : ℝ
  refracted : ℝ

/-- Ratio of the absolute indices, from `RelativeRefractiveIndex::relative`. -/
noncomputable def RelativeRefractiveIndex.relative (ri : RelativeRefractiveIndex) : ℝ :=
  ri.incident / ri.refracted

/-- The Schlick approximation, from `RelativeRefractiveIndex::reflectance`:
`r0 + (1 - r0) * (1 - cos theta1)^5` with
`r0 = ((incident - refracted) / (incident + refracted))^2`. -/
noncomputable def RelativeRefractiveIndex.reflectance (ri : RelativeRefractiveIndex)
    (cosineTheta1 : ℝ) : ℝ :=
  let r0 := ((ri.incident - ri.refracted) / (ri.incident + ri.refracted)) ^ 2
  r0 + (1 - r0) * (1 - cosineTheta1) ^ 5

/-- A sphere surface, from `src/surface/sphere.rs`. -/
structure Sphere where
  center : V3 ℝ
  radius : ℝ
  material : Material

/-- Ray-sphere intersection, from `Sphere::hit`: solve the quadratic, try
the smaller root first, then classify the side by the outward normal. -/
noncomputable def Sphere.hit (s : Sphere) (byRay : RayG ℝ) (distanceRange : DRange ℝ) :
    Option Hit :=
  let oc := byRay.origin.sub s.center
  let a := byRay.direction.lengthSquared
  let c := oc.lengthSquared - s.radius * s.radius
  let halfB := oc.dot byRay.direction
  let discriminant := halfB * halfB - a * c
  if discriminant < 0 then none
  else
    let discriminantSqrt := Real.sqrt discriminant
    let distance1 := (-halfB - discriminantSqrt) / a
    let distance2 := (-halfB + discriminantSqrt) / a
    let chosen :=
      if distanceRange.containsF distance1 then some distance1
      else if distanceRange.containsF distance2 then some distance2
      else none
    match chosen with
    | none => none
    | some distance =>
      let location := byRay.at distance
      let outwardNormal := (location.sub s.center).divC s.radius
      if outwardNormal.dot byRay.direction < 0 then
        some ⟨location, outwardNormal, distance, .enter, s.material⟩
      else
        some ⟨location, outwardNormal.neg, distance, .leave, s.material⟩

/-- A triangle surface, from `src/surface/triangle.rs`. -/
structure Triangle where
  vertex0 : V3 ℝ
  vertex1 : V3 ℝ
  vertex2 : V3 ℝ
  material : Material

/-- Ray-triangle intersection, the Moeller-Trumbore algorithm from
`Triangle::hit`.  The geometric normal is flipped to face the incoming
ray and the hit is classified `Refract`. -/
noncomputable def Triangle.hit (t : Triangle) (byRay : RayG ℝ) (distanceRange : DRange ℝ) :
    Option Hit :=
  let edge1 := t.vertex1.sub t.vertex0
  let edge2 := t.vertex2.sub t.vertex0
  let h := byRay.direction.cross edge2
  let a := edge1.dot h
  let f := 1 / a
  let s := byRay.origin.sub t.vertex0
  let u := f * s.dot h
  if ¬(0 ≤ u ∧ u ≤ 1) then none
  else
    let q := s.cross edge1
    let v := f * byRay.direction.dot q
    if v < 0 ∨ u + v > 1 then none
    else
      let distance := f * edge2.dot q
      if distanceRange.containsF distance then
        let normal0 := (edge1.cross edge2).normalize
        let normal := if normal0.dot byRay.direction > 0 then normal0.neg else normal0
        some ⟨byRay.at distance, normal, distance, .refract, t.material⟩
      else none

/-- A uniform participating medium, from `src/surface/fog.rs`. -/
structure UniformFog where
  aabb : Aabb ℝ
  density : ℝ
  material : Material

/-- Free-flight sampling of the fog, from `UniformFog::hit`, with the drawn
uniform sample `u` passed explicitly:
`hit_distance = min_distance - 1 / density * ln(u)`.  The runtime assertion
that `min_distance` is finite aborts the program; the non-finite case is
modelled as a miss and is unreachable under the hypotheses of the theorems
below.  The hit is classified `HitType::Enter` in the source (the line
carries a FIXME comment). -/
noncomputable def UniformFog.hit (fog : UniformFog) (byRay : RayG ℝ)
    (distanceRange : DRange ℝ) (u : ℝ) : Option Hit :=
  match fog.aabb.hit byRay distanceRange with
  | none => none
  | some (minDistance, maxDistance) =>
    match minDistance with
    | .fin m =>
      let hitDistance := m - 1 / fog.density * Real.log u
      if (Flt.fin hitDistance).blt maxDistance then
        some ⟨byRay.at hitDistance, byRay.direction.normalize.neg, hitDistance,
          .enter, fog.material⟩
      else none
    | _ => none

/-- The interface index pair chosen by `Tracer::trace_refraction`: the two
absolute indices, evaluated at the wavelength, are swapped when the ray
leaves the body. -/
noncomputable def refractiveIndexAt (transmittance : Transmittance) (type_ : HitType)
    (wavelength : ℝ) : RelativeRefractiveIndex :=
  match type_ with
  | .leave => ⟨transmittance.refractedIndex wavelength, transmittance.incidentIndex wavelength⟩
  | _ => ⟨transmittance.incidentIndex wavelength, transmittance.refractedIndex wavelength⟩

/-- The refraction branch, from `Tracer::trace_refraction`.  The mutable
effect-check sequence is modelled by the stream `effSeq` and the cursor
`ke`; the returned cursor reflects how many samples were consumed.  The
runtime assertion `cosine_theta_1 >= 0` is not modelled (theorems
hypothesize it). -/
noncomputable def traceRefraction (incidentRay : RayG ℝ) (wavelength : ℝ) (hit : Hit)
    (effSeq : ℕ → ℝ) (ke : ℕ) : Option (RayG ℝ × ℝ) × ℕ :=
  match hit.material.transmittance with
  | none => (none, ke)
  | some transmittance =>
    let refractiveIndex := refractiveIndexAt transmittance hit.type_ wavelength
    let cosineTheta1 := min (-(hit.normal.dot incidentRay.direction)) 1
    let sinTheta2 := refractiveIndex.relative * Real.sqrt (1 - cosineTheta1 ^ 2)
    if 1 < sinTheta2 then (none, ke)
    else if effSeq ke < refractiveIndex.reflectance cosineTheta1 then (none, ke + 1)
    else
      let cosineTheta2 := Real.sqrt (1 - sinTheta2 ^ 2)
      let mu := refractiveIndex.relative
      let direction :=
        (incidentRay.direction.smul mu).add (hit.normal.smul (mu * cosineTheta1 - cosineTheta2))
      let ray := RayG.make hit.location direction
      let attenuation :=
        if hit.type_ = .leave then
          Real.exp (-hit.distance * transmittance.attenuationCoefficient wavelength)
        else 1
      (some (ray, attenuation), ke + 1)

/-- The Lambertian diffusion branch, from `Tracer::trace_diffusion`.  Note
that `Ray::new` normalizes the direction, so the `ray.direction.length()`
factor of the source is the length of the NORMALIZED direction. -/
noncomputable def traceDiffusion (hit : Hit) (wavelength : ℝ) (effSeq : ℕ → ℝ)
    (difSeq : ℕ → V2 ℝ) (ke kd : ℕ) : Option (RayG ℝ × ℝ) × ℕ × ℕ :=
  match hit.material.reflectance with
  | none => (none, ke, kd)
  | some reflectance =>
    match reflectance.diffusion with
    | none => (none, ke, kd)
    | some probability =>
      if probability < effSeq ke then (none, ke + 1, kd)
      else
        let ray := RayG.make hit.location (hit.normal.add (sampleUnitVector (difSeq kd)))
        let attenuation := reflectance.attenuation wavelength * ray.direction.length / 2
        (some (ray, attenuation), ke + 1, kd + 1)

/-- The specular branch, from `Tracer::trace_specular_reflection`, with the
optional fuzz perturbation re-normalized. -/
noncomputable def traceSpecularReflection (incidentRay : RayG ℝ) (wavelength : ℝ)
    (hit : Hit) (difSeq : ℕ → V2 ℝ) (kd : ℕ) : Option (RayG ℝ × ℝ) × ℕ :=
  match hit.material.reflectance with
  | none => (none, kd)
  | some reflectance =>
    let base := RayG.mk hit.location (incidentRay.direction.reflectAbout hit.normal).normalize
    match reflectance.fuzz with
    | some fuzz =>
      (some ({ base with
        direction := (base.direction.add ((sampleUnitVector (difSeq kd)).smul fuzz)).normalize },
        reflectance.attenuation wavelength), kd + 1)
    | none => (some (base, reflectance.attenuation wavelength), kd)

/-- One scatter decision, from the if-let chain in `Tracer::trace_ray`:
refraction first, then diffusion, then specular reflection; the first
branch that succeeds wins. -/
noncomputable def scatterRay (incidentRay : RayG ℝ) (wavelength : ℝ) (hit : Hit)
    (effSeq : ℕ → ℝ) (difSeq : ℕ → V2 ℝ) (ke kd : ℕ) :
    Option (RayG ℝ × ℝ) × ℕ × ℕ :=
  match traceRefraction incidentRay wavelength hit effSeq ke with
  | (some ra, ke1) => (some ra, ke1, kd)
  | (none, ke1) =>
    match traceDiffusion hit wavelength effSeq difSeq ke1 kd with
    | (some ra, ke2, kd2) => (some ra, ke2, kd2)
    | (none, ke2, kd2) =>
      match traceSpecularReflection incidentRay wavelength hit difSeq kd2 with
      | (some ra, kd3) => (some ra, ke2, kd3)
      | (none, kd3) => (none, ke2, kd3)

/-- Result of the bounce loop: accumulated spectral flux density, the two
sequence cursors, and (as instrumentation for the bounce-count claim) the
number of completed scatter bounces. -/
structure TraceOut where
  flux : ℝ
  ke : ℕ
  kd : ℕ
  bounces : ℕ

/-- The iterative bounce loop of `Tracer::trace_ray`.  The `for` loop over
`0..n_bounces_left` is fuel recursion; the scene and its BVH are abstracted
into `hitF`, which already closes over the distance range
`min_hit_distance..infinity` and consumes effect-check samples (the
source passes `effect_check_sequence` as the rng of `Bvh::hit`).  The
`bounces` field counts completed scatter iterations and is not part of the
source state. -/
noncomputable def traceRayGo (hitF : RayG ℝ → ℕ → Option Hit × ℕ) (sceneEmittance : ℝ)
    (wavelength : ℝ) (minAttenuation : ℝ) (effSeq : ℕ → ℝ) (difSeq : ℕ → V2 ℝ) :
    ℕ → RayG ℝ → ℝ → ℝ → ℕ → ℕ → TraceOut
  | 0, _, totalFluxDensity, _, ke, kd => ⟨totalFluxDensity, ke, kd, 0⟩
  | fuel + 1, ray, totalFluxDensity, totalAttenuation, ke, kd =>
    if totalAttenuation < minAttenuation then ⟨totalFluxDensity, ke, kd, 0⟩
    else
      match hitF ray ke with
      | (none, ke1) => ⟨totalFluxDensity + totalAttenuation * sceneEmittance, ke1, kd, 0⟩
      | (some hit, ke1) =>
        let flux1 :=
          if hit.type_ = .enter then
            match hit.material.emittance with
            | some emittance => totalFluxDensity + totalAttenuation * emittance wavelength
            | none => totalFluxDensity
          else totalFluxDensity
        match scatterRay ray wavelength hit effSeq difSeq ke1 kd with
        | (none, ke2, kd2) => ⟨flux1, ke2, kd2, 0⟩
        | (some (scatteredRay, attenuation), ke2, kd2) =>
          let rest := traceRayGo hitF sceneEmittance wavelength minAttenuation effSeq difSeq
            fuel scatteredRay flux1 (totalAttenuation * attenuation) ke2 kd2
          ⟨rest.flux, rest.ke, rest.kd, rest.bounces + 1⟩

/-- Entry point of the loop, from `Tracer::trace_ray`: the total starts at
zero, the throughput at one, and the fuel is `n_max_bounces`
(`n_bounces_left` at the call site in `render_pixel`). -/
noncomputable def traceRay (hitF : RayG ℝ → ℕ → Option Hit × ℕ) (ambientEmittance : ℝ → ℝ)
    (wavelength : ℝ) (nMaxBounces : ℕ) (minAttenuation : ℝ) (effSeq : ℕ → ℝ)
    (difSeq : ℕ → V2 ℝ) (ray : RayG ℝ) : TraceOut :=
  traceRayGo hitF (ambientEmittance wavelength) wavelength minAttenuation effSeq difSeq
    nMaxBounces ray 0 1 0 0

/-- Bounding volume hierarchy, from `src/tracer/bvh.rs`.  A leaf borrows a
contiguous sub-slice of the surface slice; here it holds the corresponding
list. -/
inductive Bvh (T : Type) (α : Type) where
  | empty : Bvh T α
  | leaf (surfaces : List T) : Bvh T α
  | node (box : Aabb α) (left right : Bvh T α) : Bvh T α
  deriving DecidableEq

/-- The recursive build of `Bvh::new`, generic over the `Bounded` surface
type via the projection `aabbF`.  The source recursion has no structural
termination measure (a degenerate split can leave one side whole, on which
the Rust program would recurse forever), so the embedding takes explicit
fuel; exhausted fuel produces a leaf, which preserves query semantics.
`sort_unstable_by(total_cmp)` is modelled by a stable insertion sort under
the same total order (the claims do not depend on the tie order), and
`partition_point` on the sorted slice is `takeWhile`/`dropWhile` of the
same predicate, which agrees with the binary search because the predicate
is monotone along the sorted slice. -/
def Bvh.newGo [LinearOrderedField α] (aabbF : T → Aabb α) (maxLeafSize : ℕ) :
    ℕ → List T → Bvh T α
  | 0, surfaces => .leaf surfaces
  | fuel + 1, surfaces =>
    match surfaces with
    | [] => .empty
    | s0 :: rest =>
      if (s0 :: rest).length ≤ maxLeafSize then .leaf (s0 :: rest)
      else
        let box := rest.foldl (fun accumulator s => accumulator.join (aabbF s)) (aabbF s0)
        let size := box.size
        let key : EV3 α → Flt α :=
          if size.y.blt size.x && size.z.blt size.x then fun v => v.x
          else if size.x.blt size.y && size.z.blt size.y then fun v => v.y
          else fun v => v.z
        let sorted := (s0 :: rest).insertionSort
          (fun l r => (key (aabbF l).center).btotalLe (key (aabbF r).center) = true)
        let c := key box.center
        let leftHalf := sorted.takeWhile (fun s => (key (aabbF s).center).blt c)
        let rightHalf := sorted.dropWhile (fun s => (key (aabbF s).center).blt c)
        .node box (Bvh.newGo aabbF maxLeafSize fuel leftHalf)
          (Bvh.newGo aabbF maxLeafSize fuel rightHalf)

/-- Top-level build, from `Bvh::new(surfaces, max_leaf_size)`.  The fuel
`length + 1` suffices whenever every recursive split is proper. -/
def Bvh.new [LinearOrderedField α] (aabbF : T → Aabb α) (maxLeafSize : ℕ)
    (surfaces : List T) : Bvh T α :=
  Bvh.newGo aabbF maxLeafSize (surfaces.length + 1) surfaces

/-- The surfaces below a tree, in leaf order: this is exactly the permuted
underlying slice the built BVH borrows. -/
def Bvh.flat : Bvh T α → List T
  | .empty => []
  | .leaf surfaces => surfaces
  | .node _ left right => left.flat ++ right.flat

/-- An abstract surface for the BVH query claims: a bounding box and a hit
function that consumes generator state `σ` and reports the hit distance
(only the distance of a `Hit` is compared and returned by `Bvh::hit`). -/
structure QSurf (α : Type) (σ : Type) where
  aabb : Aabb α
  hitD : RayG α → DRange α → σ → Option α × σ

/-- Minimum-accumulation step of `Iterator::min_by` on distances: of two
equally small candidates the EARLIER one is kept. -/
def combineMin [LinearOrder α] : Option α → Option α → Option α
  | none, b => b
  | a, none => a
  | some a, some b => some (if b < a then b else a)

/-- Linear scan of a slice, from the `Leaf` arm of `Bvh::hit`:
`filter_map(hit).min_by(distance.total_cmp)`, with the generator state
consumed in slice order. -/
def scanHits [LinearOrder α] (ray : RayG α) (range : DRange α) :
    List (QSurf α σ) → σ → Option α × σ
  | [], st => (none, st)
  | q :: rest, st =>
    let p1 := q.hitD ray range st
    let p2 := scanHits ray range rest p1.2
    (combineMin p1.1 p2.1, p2.2)

/-- Merge of the child results in the `Node` arm of `Bvh::hit`: the strictly
nearer hit wins, a tie goes to the right child. -/
def nodeMerge [LinearOrder α] : Option α → Option α → Option α
  | some l, some r => some (if l < r then l else r)
  | some l, none => some l
  | _, r => r

/-- The BVH query, from `Bvh::hit`: empty misses, a leaf scans linearly, a
node first runs the slab test on its box in the unchanged query range and
on success queries both children left to right. -/
def Bvh.hitQ [LinearOrderedField α] (ray : RayG α) (range : DRange α) :
    Bvh (QSurf α σ) α → σ → Option α × σ
  | .empty, st => (none, st)
  | .leaf surfaces, st => scanHits ray range surfaces st
  | .node box left right, st =>
    if (box.hit ray range).isSome then
      let p1 := Bvh.hitQ ray range left st
      let p2 := Bvh.hitQ ray range right p1.2
      (nodeMerge p1.1 p2.1, p2.2)
    else (none, st)

/-- Test for a finite (non-infinite, non-NaN) value. -/
def Flt.isFin : Flt α → Bool
  | .fin _ => true
  | _ => false

/-- Test for NaN. -/
def Flt.isNan : Flt α → Bool
  | .nan => true
  | _ => false

/-- All three components finite. -/
def EV3.allFin (a : EV3 α) : Bool := a.x.isFin && a.y.isFin && a.z.isFin

/-- All three components infinite. -/
def EV3.allInf (a : EV3 α) : Bool := a.x.isInf && a.y.isInf && a.z.isInf

/-- No component is NaN. -/
def EV3.noNan (a : EV3 α) : Bool := !a.x.isNan && !a.y.isNan && !a.z.isNan

/-- No coordinate of the box is NaN. -/
def Aabb.noNan (a : Aabb α) : Bool := a.minPoint.noNan && a.maxPoint.noNan

/-- Box containment: `inner` lies inside `outer`, componentwise with IEEE
comparisons (false as soon as a NaN coordinate is involved). -/
def Aabb.bsub [LinearOrder α] (inner outer : Aabb α) : Bool :=
  outer.minPoint.x.ble inner.minPoint.x && outer.minPoint.y.ble inner.minPoint.y &&
  outer.minPoint.z.ble inner.minPoint.z && inner.maxPoint.x.ble outer.maxPoint.x &&
  inner.maxPoint.y.ble outer.maxPoint.y && inner.maxPoint.z.ble outer.maxPoint.z

/-- Soundness of a tree: every node box contains the boxes of all surfaces
below it.  `Bvh::new` establishes this invariant; `Bvh::hit` relies on it
when it prunes a subtree after a failed slab test. -/
def Bvh.Covered [LinearOrder α] : Bvh (QSurf α σ) α → Prop
  | .empty => True
  | .leaf _ => True
  | .node box left right =>
    (∀ q ∈ left.flat ++ right.flat, Aabb.bsub q.aabb box = true) ∧
      Bvh.Covered left ∧ Bvh.Covered right

/-- The emitted contribution of one bounce in `Tracer::trace_ray`: the
material emittance scaled by the current throughput, added exactly when
the hit type is `Enter` and the material has an emittance. -/
noncomputable def emittedTerm (hit : Hit) (totalAttenuation wavelength : ℝ) : ℝ :=
  if hit.type_ = .enter then
    match hit.material.emittance with
    | some emittance => totalAttenuation * emittance wavelength
    | none => 0
  else 0

/-- A material with no optical properties at all. -/
def matNone : Material := ⟨none, none, none⟩

/-- A clear dielectric with equal indices 1 and no internal absorption. -/
def matGlass : Material :=
  ⟨none, some ⟨fun _ => 1, fun _ => 1, fun _ => 0⟩, none⟩

/-- A matte material: full spectral attenuation, no fuzz, diffusion
probability one half. -/
noncomputable def matDiffuse : Material :=
  ⟨some ⟨fun _ => 1, none, some (1 / 2)⟩, none, none⟩

/-- A concrete pair of abstract surfaces over ℚ with disjoint unit boxes
and hit functions that never hit and never consume a sample; the state
type is ℕ. -/
def qsurfPair : List (QSurf ℚ ℕ) :=
  [⟨⟨EV3.ofV3 ⟨2, 0, 0⟩, EV3.ofV3 ⟨3, 1, 1⟩⟩, fun _ _ s => (none, s)⟩,
    ⟨⟨EV3.ofV3 ⟨5, 0, 0⟩, EV3.ofV3 ⟨6, 1, 1⟩⟩, fun _ _ s => (none, s)⟩]

theorem Flt.ble_self [LinearOrderedField α] {a : Flt α} (h : a ≠ .nan) : a.ble a = true := by
  cases a <;> simp_all [Flt.ble]

theorem Flt.ble_trans [LinearOrderedField α] {a b c : Flt α} (h1 : a.ble b = true)
    (h2 : b.ble c = true) : a.ble c = true := by
  cases a <;> cases b <;> cases c <;> simp_all [Flt.ble]
  all_goals linarith

theorem Flt.ble_ne_nan_left [LinearOrderedField α] {a b : Flt α} (h : a.ble b = true) :
    a ≠ .nan := by
  cases a <;> simp_all [Flt.ble]

theorem Flt.ble_ne_nan_right [LinearOrderedField α] {a b : Flt α} (h : a.ble b = true) :
    b ≠ .nan := by
  cases a <;> cases b <;> simp_all [Flt.ble]

theorem Flt.fmin_ne_nan [LinearOrderedField α] {a b : Flt α} (hb : b ≠ .nan) :
    a.fmin b ≠ .nan := by
  cases a <;> cases b <;> simp_all [Flt.fmin] <;> split <;> simp_all

theorem Flt.fmax_ne_nan [LinearOrderedField α] {a b : Flt α} (hb : b ≠ .nan) :
    a.fmax b ≠ .nan := by
  cases a <;> cases b <;> simp_all [Flt.fmax] <;> split <;> simp_all

theorem Flt.ble_false_iff_blt [LinearOrderedField α] {a b : Flt α} (ha : a ≠ .nan)
    (hb : b ≠ .nan) : a.ble b = false ↔ b.blt a = true := by
  cases a <;> cases b <;> simp_all [Flt.ble, Flt.blt]

theorem Flt.fmin_ble_left [LinearOrderedField α] {x y : Flt α} (hx : x ≠ .nan) :
    (x.fmin y).ble x = true := by
  cases x with
  | nan => exact absurd rfl hx
  | ninf => cases y <;> simp [Flt.fmin, Flt.ble, Flt.blt]
  | pinf => cases y <;> simp [Flt.fmin, Flt.ble, Flt.blt]
  | fin a =>
    cases y with
    | nan => simp [Flt.fmin, Flt.ble]
    | ninf => simp [Flt.fmin, Flt.ble, Flt.blt]
    | pinf => simp [Flt.fmin, Flt.ble, Flt.blt]
    | fin b =>
      simp only [Flt.fmin]
      split_ifs with h
      · simp only [Flt.blt, decide_eq_true_eq] at h
        simp [Flt.ble, le_of_lt h]
      · simp [Flt.ble]

theorem Flt.fmin_ble_right [LinearOrderedField α] {x y : Flt α} (hy : y ≠ .nan) :
    (x.fmin y).ble y = true := by
  cases y with
  | nan => exact absurd rfl hy
  | ninf => cases x <;> simp [Flt.fmin, Flt.ble, Flt.blt]
  | pinf => cases x <;> simp [Flt.fmin, Flt.ble, Flt.blt]
  | fin b =>
    cases x with
    | nan => simp [Flt.fmin, Flt.ble]
    | ninf => simp [Flt.fmin, Flt.ble, Flt.blt]
    | pinf => simp [Flt.fmin, Flt.ble, Flt.blt]
    | fin a =>
      simp only [Flt.fmin]
      split_ifs with h
      · simp [Flt.ble]
      · simp only [Flt.blt, decide_eq_true_eq] at h
        simp only [Flt.ble, decide_eq_true_eq]
        exact le_of_not_lt h

theorem Flt.fmax_ble_left [LinearOrderedField α] {x y : Flt α} (hx : x ≠ .nan) :
    x.ble (x.fmax y) = true := by
  cases x with
  | nan => exact absurd rfl hx
  | ninf => cases y <;> simp [Flt.fmax, Flt.ble, Flt.blt]
  | pinf => cases y <;> simp [Flt.fmax, Flt.ble, Flt.blt]
  | fin a =>
    cases y with
    | nan => simp [Flt.fmax, Flt.ble]
    | ninf => simp [Flt.fmax, Flt.ble, Flt.blt]
    | pinf => simp [Flt.fmax, Flt.ble, Flt.blt]
    | fin b =>
      simp only [Flt.fmax]
      split_ifs with h
      · simp only [Flt.blt, decide_eq_true_eq] at h
        simp [Flt.ble, le_of_lt h]
      · simp [Flt.ble]

theorem Flt.fmax_ble_right [LinearOrderedField α] {x y : Flt α} (hy : y ≠ .nan) :
    y.ble (x.fmax y) = true := by
  cases y with
  | nan => exact absurd rfl hy
  | ninf => cases x <;> simp [Flt.fmax, Flt.ble, Flt.blt]
  | pinf => cases x <;> simp [Flt.fmax, Flt.ble, Flt.blt]
  | fin b =>
    cases x with
    | nan => simp [Flt.fmax, Flt.ble]
    | ninf => simp [Flt.fmax, Flt.ble, Flt.blt]
    | pinf => simp [Flt.fmax, Flt.ble, Flt.blt]
    | fin a =>
      simp only [Flt.fmax]
      split_ifs with h
      · simp [Flt.ble]
      · simp only [Flt.blt, decide_eq_true_eq] at h
        simp only [Flt.ble, decide_eq_true_eq]
        exact le_of_not_lt h

theorem Flt.ble_fmin_left [LinearOrderedField α] {x y z : Flt α} (h : x.ble z = true) :
    (x.fmin y).ble z = true :=
  Flt.ble_trans (Flt.fmin_ble_left (Flt.ble_ne_nan_left h)) h

theorem Flt.ble_fmin_right [LinearOrderedField α] {x y z : Flt α} (h : y.ble z = true) :
    (x.fmin y).ble z = true :=
  Flt.ble_trans (Flt.fmin_ble_right (Flt.ble_ne_nan_left h)) h

theorem Flt.ble_fmax_left [LinearOrderedField α] {x y z : Flt α} (h : z.ble x = true) :
    z.ble (x.fmax y) = true :=
  Flt.ble_trans h (Flt.fmax_ble_left (Flt.ble_ne_nan_right h))

theorem Flt.ble_fmax_right [LinearOrderedField α] {x y z : Flt α} (h : z.ble y = true) :
    z.ble (x.fmax y) = true :=
  Flt.ble_trans h (Flt.fmax_ble_right (Flt.ble_ne_nan_right h))

theorem EV3.isInfinite_false_of_allFin {v : EV3 α} (h : v.allFin = true) :
    v.isInfinite = false := by
  obtain ⟨x, y, z⟩ := v
  cases x <;> cases y <;> cases z <;>
    simp_all [EV3.allFin, EV3.isInfinite, Flt.isFin, Flt.isInf]

theorem EV3.isInfinite_of_allInf {v : EV3 α} (h : v.allInf = true) :
    v.isInfinite = true := by
  obtain ⟨x, y, z⟩ := v
  cases x <;> simp_all [EV3.allInf, EV3.isInfinite, Flt.isInf]

/-- C7: for a fully finite AABB the slab test misses exactly when the exit
distance (the smallest of the per-axis far distances, clamped above by the
range end) is negative or the entry distance (the largest of the per-axis
near distances, clamped below by the range start) exceeds the exit
distance; and for the unbounded AABB with both corner points fully
infinite the test returns the original query range unchanged.  The range
endpoints are hypothesized non-NaN (they are real numbers or infinity at
every call site). -/
theorem c7_slab_test [LinearOrderedField α] (a : Aabb α) (ray : RayG α)
    (range : DRange α) :
    (a.minPoint.allFin = true → a.maxPoint.allFin = true →
      range.start ≠ .nan → range.stop ≠ .nan →
      (a.hit ray range = none ↔
        (a.slabExit ray range).blt (.fin 0) = true ∨
          (a.slabExit ray range).blt (a.slabEnter ray range) = true)) ∧
    (a.minPoint.allInf = true → a.maxPoint.allInf = true →
      a.hit ray range = some (range.start, range.stop)) := by
  constructor
  · intro hminf hmaxf hs hn
    have hinf : (a.minPoint.isInfinite && a.maxPoint.isInfinite) = false := by
      simp [EV3.isInfinite_false_of_allFin hminf]
    have hexit : a.slabExit ray range ≠ .nan := by
      rw [Aabb.slabExit]; exact Flt.fmin_ne_nan hn
    have henter : a.slabEnter ray range ≠ .nan := by
      rw [Aabb.slabEnter]; exact Flt.fmax_ne_nan hs
    rw [Aabb.hit, hinf]
    by_cases h1 : (a.slabExit ray range).blt (.fin 0) = true
    · simp [h1]
    · have h1f : (a.slabExit ray range).blt (.fin 0) = false := by simpa using h1
      by_cases h2 : (a.slabEnter ray range).ble (a.slabExit ray range) = true
      · have h4 : (a.slabExit ray range).blt (a.slabEnter ray range) = false := by
          by_contra hc
          have hc2 : (a.slabExit ray range).blt (a.slabEnter ray range) = true := by
            simpa using hc
          have : (a.slabEnter ray range).ble (a.slabExit ray range) = false :=
            (Flt.ble_false_iff_blt henter hexit).mpr hc2
          rw [this] at h2
          exact absurd h2 (by simp)
        simp [h1f, h2, h4]
      · have h2f : (a.slabEnter ray range).ble (a.slabExit ray range) = false := by
          simpa using h2
        simp [h1f, h2f, (Flt.ble_false_iff_blt henter hexit).mp h2f]
  · intro hminf hmaxf
    rw [Aabb.hit]
    simp [EV3.isInfinite_of_allInf hminf, EV3.isInfinite_of_allInf hmaxf]

/-- Witness for C7: a concrete finite box behind a concrete ray misses with
a negative exit distance, and the fully infinite box returns the range
unchanged. -/
theorem c7_slab_test_witness :
    ((Aabb.mk (EV3.ofV3 ⟨0, 0, 0⟩) (EV3.ofV3 ⟨1, 1, 1⟩) : Aabb ℚ).hit
        ⟨⟨2, 2, 2⟩, ⟨1, 1, 1⟩⟩ ⟨.fin 0, .pinf⟩ = none ↔
      ((Aabb.mk (EV3.ofV3 ⟨0, 0, 0⟩) (EV3.ofV3 ⟨1, 1, 1⟩) : Aabb ℚ).slabExit
          ⟨⟨2, 2, 2⟩, ⟨1, 1, 1⟩⟩ ⟨.fin 0, .pinf⟩).blt (.fin 0) = true ∨
        ((Aabb.mk (EV3.ofV3 ⟨0, 0, 0⟩) (EV3.ofV3 ⟨1, 1, 1⟩) : Aabb ℚ).slabExit
            ⟨⟨2, 2, 2⟩, ⟨1, 1, 1⟩⟩ ⟨.fin 0, .pinf⟩).blt
          ((Aabb.mk (EV3.ofV3 ⟨0, 0, 0⟩) (EV3.ofV3 ⟨1, 1, 1⟩) : Aabb ℚ).slabEnter
            ⟨⟨2, 2, 2⟩, ⟨1, 1, 1⟩⟩ ⟨.fin 0, .pinf⟩) = true) ∧
    (Aabb.mk (⟨.ninf, .ninf, .ninf⟩ : EV3 ℚ) ⟨.pinf, .pinf, .pinf⟩).hit
        ⟨⟨2, 2, 2⟩, ⟨1, 1, 1⟩⟩ ⟨.fin 0, .pinf⟩ = some (.fin 0, .pinf) :=
  ⟨(c7_slab_test _ _ _).1 (by decide) (by decide) (by decide) (by decide),
    (c7_slab_test _ _ _).2 (by decide) (by decide)⟩

/-- C10: a box whose corner points each have at least one infinite
component takes the unbounded shortcut of `Aabb::hit` and returns the
query range unchanged, even if the box is finite along the other axes,
because `Vec3::is_infinite` is a disjunction over the components. -/
theorem c10_partially_infinite_box_unbounded [LinearOrderedField α] (a : Aabb α)
    (ray : RayG α) (range : DRange α) (hmin : a.minPoint.isInfinite = true)
    (hmax : a.maxPoint.isInfinite = true) :
    a.hit ray range = some (range.start, range.stop) := by
  rw [Aabb.hit]
  simp [hmin, hmax]

/-- Witness for C10: a box infinite only along the x axis (the finite y and
z extents would matter for a slab test) still reports the whole range. -/
theorem c10_partially_infinite_box_unbounded_witness :
    (Aabb.mk (⟨.ninf, .fin 0, .fin 0⟩ : EV3 ℚ) ⟨.pinf, .fin 1, .fin 1⟩).hit
        ⟨⟨0, 5, 5⟩, ⟨1, 0, 0⟩⟩ ⟨.fin 0, .pinf⟩ = some (.fin 0, .pinf) ∧
      EV3.allInf (⟨.ninf, .fin 0, .fin 0⟩ : EV3 ℚ) = false :=
  ⟨c10_partially_infinite_box_unbounded _ _ _ (by decide) (by decide), by decide⟩

/-- C9: for every vector `d` and unit normal `n` with `d . n <= 0`,
`reflect_about` preserves the incidence angle (`reflect(d,n) . n = -(d . n)`)
and the length (`|reflect(d,n)| = |d|`). -/
theorem c9_reflect_about (d n : V3 ℝ) (hunit : n.length = 1) (_hdn : d.dot n ≤ 0) :
    (d.reflectAbout n).dot n = -(d.dot n) ∧ (d.reflectAbout n).length = d.length := by
  have hnn : n.dot n = 1 := by
    rw [V3.length, V3.lengthSquared] at hunit
    exact Real.sqrt_eq_one.mp hunit
  simp only [V3.dot] at hnn
  constructor
  · simp only [V3.reflectAbout, V3.dot, V3.sub, V3.smul]
    linear_combination (-2 * (d.x * n.x + d.y * n.y + d.z * n.z)) * hnn
  · have hsq : (d.reflectAbout n).lengthSquared = d.lengthSquared := by
      simp only [V3.reflectAbout, V3.lengthSquared, V3.dot, V3.sub, V3.smul]
      linear_combination (4 * (d.x * n.x + d.y * n.y + d.z * n.z) ^ 2) * hnn
    rw [V3.length, V3.length, hsq]

/-- Witness for C9 at `d = (1, 0, -1)`, `n = (0, 0, 1)`. -/
theorem c9_reflect_about_witness :
    ((V3.mk 1 0 (-1) : V3 ℝ).reflectAbout ⟨0, 0, 1⟩).dot ⟨0, 0, 1⟩ =
        -((V3.mk 1 0 (-1) : V3 ℝ).dot ⟨0, 0, 1⟩) ∧
      ((V3.mk 1 0 (-1) : V3 ℝ).reflectAbout ⟨0, 0, 1⟩).length =
        (V3.mk 1 0 (-1) : V3 ℝ).length :=
  c9_reflect_about ⟨1, 0, -1⟩ ⟨0, 0, 1⟩
    (by simp [V3.length, V3.lengthSquared, V3.dot])
    (by simp [V3.dot])

/-- C8: every hit returned by a sphere, a triangle, or a uniform fog has a
normal whose dot product with the ray direction is nonpositive.  The
statement does not even need the unit-direction premise of the claim. -/
theorem c8_hit_normal_faces_ray :
    (∀ (s : Sphere) (ray : RayG ℝ) (range : DRange ℝ) (h : Hit),
      s.hit ray range = some h → h.normal.dot ray.direction ≤ 0) ∧
    (∀ (t : Triangle) (ray : RayG ℝ) (range : DRange ℝ) (h : Hit),
      t.hit ray range = some h → h.normal.dot ray.direction ≤ 0) ∧
    (∀ (fog : UniformFog) (ray : RayG ℝ) (range : DRange ℝ) (u : ℝ) (h : Hit),
      fog.hit ray range u = some h → h.normal.dot ray.direction ≤ 0) := by
  refine ⟨?_, ?_, ?_⟩
  · intro s ray range h hEq
    simp only [Sphere.hit] at hEq
    split at hEq
    · exact absurd hEq (by simp)
    · split at hEq
      · exact absurd hEq (by simp)
      · split at hEq
        · rename_i hsign
          cases hEq
          exact le_of_lt hsign
        · rename_i hsign
          cases hEq
          simp only [V3.neg, V3.dot]
          simp only [V3.dot, not_lt] at hsign
          linarith
  · intro t ray range h hEq
    simp only [Triangle.hit] at hEq
    split at hEq
    · exact absurd hEq (by simp)
    · split at hEq
      · exact absurd hEq (by simp)
      · split at hEq
        · split at hEq
          · rename_i hsign
            cases hEq
            simp only [V3.neg, V3.dot]
            simp only [V3.dot] at hsign
            linarith
          · rename_i hsign
            cases hEq
            simp only [V3.dot, gt_iff_lt, not_lt] at hsign
            simpa [V3.dot] using hsign
        · exact absurd hEq (by simp)
  · intro fog ray range u h hEq
    simp only [UniformFog.hit] at hEq
    split at hEq
    · exact absurd hEq (by simp)
    · split at hEq
      · split at hEq
        · cases hEq
          have hs : (0:ℝ) ≤ Real.sqrt (ray.direction.lengthSquared) :=
            Real.sqrt_nonneg _
          simp only [V3.neg, V3.divC, V3.dot, V3.normalize, V3.length]
          have t1 : 0 ≤ ray.direction.x * ray.direction.x /
              Real.sqrt ray.direction.lengthSquared :=
            div_nonneg (mul_self_nonneg _) hs
          have t2 : 0 ≤ ray.direction.y * ray.direction.y /
              Real.sqrt ray.direction.lengthSquared :=
            div_nonneg (mul_self_nonneg _) hs
          have t3 : 0 ≤ ray.direction.z * ray.direction.z /
              Real.sqrt ray.direction.lengthSquared :=
            div_nonneg (mul_self_nonneg _) hs
          have expand : -(ray.direction.x / Real.sqrt ray.direction.lengthSquared) *
                ray.direction.x +
              -(ray.direction.y / Real.sqrt ray.direction.lengthSquared) *
                ray.direction.y +
              -(ray.direction.z / Real.sqrt ray.direction.lengthSquared) *
                ray.direction.z =
              -(ray.direction.x * ray.direction.x /
                  Real.sqrt ray.direction.lengthSquared +
                ray.direction.y * ray.direction.y /
                  Real.sqrt ray.direction.lengthSquared +
                ray.direction.z * ray.direction.z /
                  Real.sqrt ray.direction.lengthSquared) := by ring
          rw [expand]
          linarith
        · exact absurd hEq (by simp)
      · exact absurd hEq (by simp)

/-- Witness for C8: one concrete hit of each surface kind.  The sphere is
the unit sphere seen from `(0,0,3)`, the triangle is the standard simplex
face seen from above, the fog fills all space. -/
theorem c8_hit_normal_faces_ray_witness :
    (V3.mk 0 0 1 : V3 ℝ).dot ⟨0, 0, -1⟩ ≤ 0 ∧
      (V3.mk 0 0 1 : V3 ℝ).dot ⟨0, 0, -1⟩ ≤ 0 ∧
      (V3.mk (-1) 0 0 : V3 ℝ).dot ⟨1, 0, 0⟩ ≤ 0 :=
  ⟨c8_hit_normal_faces_ray.1 ⟨⟨0, 0, 0⟩, 1, matNone⟩ ⟨⟨0, 0, 3⟩, ⟨0, 0, -1⟩⟩
      ⟨.fin 0, .pinf⟩ ⟨⟨0, 0, 1⟩, ⟨0, 0, 1⟩, 2, .enter, matNone⟩
      (by norm_num [Sphere.hit, DRange.containsF, Flt.ble, Flt.blt, V3.sub, V3.dot,
        V3.lengthSquared, V3.divC, V3.smul, V3.add, RayG.at, Real.sqrt_one]),
    c8_hit_normal_faces_ray.2.1 ⟨⟨0, 0, 0⟩, ⟨1, 0, 0⟩, ⟨0, 1, 0⟩, matNone⟩
      ⟨⟨1 / 4, 1 / 4, 1⟩, ⟨0, 0, -1⟩⟩ ⟨.fin 0, .pinf⟩
      ⟨⟨1 / 4, 1 / 4, 0⟩, ⟨0, 0, 1⟩, 1, .refract, matNone⟩
      (by norm_num [Triangle.hit, DRange.containsF, Flt.ble, Flt.blt, V3.sub, V3.dot,
        V3.cross, V3.normalize, V3.length, V3.lengthSquared, V3.divC, V3.neg, V3.smul,
        V3.add, RayG.at, Real.sqrt_one]),
    c8_hit_normal_faces_ray.2.2
      ⟨⟨⟨.ninf, .ninf, .ninf⟩, ⟨.pinf, .pinf, .pinf⟩⟩, 1, matNone⟩
      ⟨⟨0, 0, 0⟩, ⟨1, 0, 0⟩⟩ ⟨.fin 0, .pinf⟩ 1
      ⟨⟨0, 0, 0⟩, ⟨-1, 0, 0⟩, 0, .enter, matNone⟩
      (by norm_num [UniformFog.hit, Aabb.hit, EV3.isInfinite, Flt.isInf, Flt.blt,
        Real.log_one, V3.normalize, V3.length, V3.lengthSquared, V3.dot, V3.divC,
        V3.neg, V3.smul, V3.add, RayG.at, Real.sqrt_one])⟩

theorem V3.dot_sq_le (a b : V3 ℝ) : (a.dot b) ^ 2 ≤ a.lengthSquared * b.lengthSquared := by
  simp only [V3.dot, V3.lengthSquared]
  nlinarith [sq_nonneg (a.x * b.y - a.y * b.x), sq_nonneg (a.x * b.z - a.z * b.x),
    sq_nonneg (a.y * b.z - a.z * b.y)]

/-- C4 divergence: on a concrete fog (unbounded box, density 2) and ray,
`UniformFog::hit` reports the hit with type `Enter` — the source line
carries a FIXME — while the specification assigns fog hits the type
`Refract`.  All other fields match the specified free-flight formula
(`t_hit = t_min - ln(U)/density`, location `ray.at(t_hit)`, normal
`-direction`). -/
theorem c4_fog_hit_type_is_enter :
    UniformFog.hit ⟨⟨⟨.ninf, .ninf, .ninf⟩, ⟨.pinf, .pinf, .pinf⟩⟩, 2, matNone⟩
        ⟨⟨0, 0, 0⟩, ⟨0, 1, 0⟩⟩ ⟨.fin 0, .pinf⟩ 1 =
      some ⟨⟨0, 0, 0⟩, ⟨0, -1, 0⟩, 0, .enter, matNone⟩ ∧
    HitType.enter ≠ HitType.refract := by
  constructor
  · norm_num [UniformFog.hit, Aabb.hit, EV3.isInfinite, Flt.isInf, Flt.blt,
      Real.log_one, V3.normalize, V3.length, V3.lengthSquared, V3.dot, V3.divC,
      V3.neg, V3.smul, V3.add, RayG.at, Real.sqrt_one]
  · decide

/-- C3: for a hit on a material with transmittance (and a well-formed
geometry: unit ray direction, unit normal, normal facing the ray, positive
refractive indices), the refraction branch fails exactly on total internal
reflection (`mu^2 * (1 - cos^2 theta1) > 1`) or when the Schlick
reflectance exceeds the drawn uniform sample; otherwise the returned ray
direction is exactly `mu * d + n * (mu * cos theta1 - cos theta2)` (it is
already unit, so the `Ray::new` normalization is the identity) and the
throughput factor is the Beer-Lambert `exp(-distance * attenuation(lambda))`
on a `Leave` hit and `1` otherwise. -/
theorem c3_trace_refraction (incidentRay : RayG ℝ) (wavelength : ℝ) (hit : Hit)
    (effSeq : ℕ → ℝ) (ke : ℕ) (tr : Transmittance)
    (htr : hit.material.transmittance = some tr)
    (hdir : incidentRay.direction.lengthSquared = 1)
    (hnorm : hit.normal.lengthSquared = 1)
    (hfacing : 0 ≤ -(hit.normal.dot incidentRay.direction))
    (hpos1 : 0 < tr.incidentIndex wavelength) (hpos2 : 0 < tr.refractedIndex wavelength) :
    ((traceRefraction incidentRay wavelength hit effSeq ke).1 = none ↔
      1 < (refractiveIndexAt tr hit.type_ wavelength).relative ^ 2 *
          (1 - min (-(hit.normal.dot incidentRay.direction)) 1 ^ 2) ∨
        effSeq ke < (refractiveIndexAt tr hit.type_ wavelength).reflectance
          (min (-(hit.normal.dot incidentRay.direction)) 1)) ∧
    (∀ ray att, (traceRefraction incidentRay wavelength hit effSeq ke).1 = some (ray, att) →
      ray.direction =
        (incidentRay.direction.smul (refractiveIndexAt tr hit.type_ wavelength).relative).add
          (hit.normal.smul
            ((refractiveIndexAt tr hit.type_ wavelength).relative *
                min (-(hit.normal.dot incidentRay.direction)) 1 -
              Real.sqrt (1 -
                ((refractiveIndexAt tr hit.type_ wavelength).relative *
                    Real.sqrt (1 - min (-(hit.normal.dot incidentRay.direction)) 1 ^ 2)) ^ 2))) ∧
        att = if hit.type_ = .leave then
            Real.exp (-hit.distance * tr.attenuationCoefficient wavelength)
          else 1) := by
  set d := incidentRay.direction with hd
  set n := hit.normal with hn
  set mu := (refractiveIndexAt tr hit.type_ wavelength).relative with hmu
  set c1 := min (-(n.dot d)) 1 with hc1
  have hmupos : 0 < mu := by
    have hall : ∀ ty, 0 < (refractiveIndexAt tr ty wavelength).relative := by
      intro ty
      cases ty <;> simp only [refractiveIndexAt, RelativeRefractiveIndex.relative] <;> positivity
    rw [hmu]; exact hall _
  have hc1nonneg : 0 ≤ c1 := le_min hfacing zero_le_one
  have hc1le : c1 ≤ 1 := min_le_right _ _
  have hsqarg : 0 ≤ 1 - c1 ^ 2 := by nlinarith
  set s2 := mu * Real.sqrt (1 - c1 ^ 2) with hs2
  have hs2nonneg : 0 ≤ s2 := by
    rw [hs2]; exact mul_nonneg (le_of_lt hmupos) (Real.sqrt_nonneg _)
  have hs2sq : s2 ^ 2 = mu ^ 2 * (1 - c1 ^ 2) := by
    rw [hs2, mul_pow, Real.sq_sqrt hsqarg]
  have hiff : (1 < s2) ↔ 1 < mu ^ 2 * (1 - c1 ^ 2) := by
    rw [← hs2sq]
    constructor
    · intro h; nlinarith
    · intro h; nlinarith
  have hunfold : traceRefraction incidentRay wavelength hit effSeq ke =
      if 1 < s2 then (none, ke)
      else if effSeq ke < (refractiveIndexAt tr hit.type_ wavelength).reflectance c1 then
        (none, ke + 1)
      else
        ((some (RayG.make hit.location
            ((d.smul mu).add (n.smul (mu * c1 - Real.sqrt (1 - s2 ^ 2)))),
          if hit.type_ = .leave then
            Real.exp (-hit.distance * tr.attenuationCoefficient wavelength)
          else 1)), ke + 1) := by
    rw [traceRefraction, htr]
  by_cases h1 : 1 < s2
  · constructor
    · rw [hunfold]
      simp only [h1, if_true]
      simp [hiff.mp h1]
    · intro ray att hcontra
      rw [hunfold] at hcontra
      simp [h1] at hcontra
  · by_cases h2 : effSeq ke < (refractiveIndexAt tr hit.type_ wavelength).reflectance c1
    · constructor
      · rw [hunfold]
        simp only [h1, if_false, h2, if_true]
        simp [h2]
      · intro ray att hcontra
        rw [hunfold] at hcontra
        simp [h1, h2] at hcontra
    · have hndeq : n.dot d = -c1 := by
        have habs : (n.dot d) ^ 2 ≤ 1 := by
          have := V3.dot_sq_le n d
          rw [hnorm, hdir] at this
          linarith
        have hle1 : -(n.dot d) ≤ 1 := by nlinarith
        rw [hc1, min_eq_left hle1]; ring
      have hs2le : s2 ≤ 1 := le_of_not_lt h1
      have hc2arg : 0 ≤ 1 - s2 ^ 2 := by nlinarith
      set c2 := Real.sqrt (1 - s2 ^ 2) with hc2
      have hc2sq : c2 ^ 2 = 1 - s2 ^ 2 := Real.sq_sqrt hc2arg
      have hdirunit : ((d.smul mu).add (n.smul (mu * c1 - c2))).lengthSquared = 1 := by
        simp only [V3.lengthSquared, V3.dot, V3.add, V3.smul]
        have hdd : d.x * d.x + d.y * d.y + d.z * d.z = 1 := by
          simpa [V3.lengthSquared, V3.dot] using hdir
        have hnn : n.x * n.x + n.y * n.y + n.z * n.z = 1 := by
          simpa [V3.lengthSquared, V3.dot] using hnorm
        have hnd : n.x * d.x + n.y * d.y + n.z * d.z = -c1 := by
          simpa [V3.dot] using hndeq
        have hs2expand : mu ^ 2 * (1 - c1 ^ 2) = s2 ^ 2 := hs2sq.symm
        linear_combination (mu ^ 2) * hdd + ((mu * c1 - c2) ^ 2) * hnn +
          (2 * mu * (mu * c1 - c2)) * hnd + hc2sq + hs2expand
      have hmk : RayG.make hit.location ((d.smul mu).add (n.smul (mu * c1 - c2))) =
          ⟨hit.location, (d.smul mu).add (n.smul (mu * c1 - c2))⟩ := by
        rw [RayG.make, V3.normalize, V3.length, hdirunit, Real.sqrt_one]
        simp [V3.divC]
      constructor
      · rw [hunfold, if_neg h1, if_neg h2]
        constructor
        · intro hcontra; simp at hcontra
        · intro hor
          rcases hor with hl | hr
          · exact absurd (hiff.mpr hl) h1
          · exact absurd hr h2
      · intro ray att heq
        rw [hunfold, if_neg h1, if_neg h2] at heq
        rw [hmk] at heq
        have heq2 : some ((⟨hit.location, (d.smul mu).add (n.smul (mu * c1 - c2))⟩ : RayG ℝ),
            (if hit.type_ = .leave then
              Real.exp (-hit.distance * tr.attenuationCoefficient wavelength)
            else (1:ℝ))) = some (ray, att) := heq
        rw [Option.some_inj, Prod.mk.injEq] at heq2
        obtain ⟨hray, hatt⟩ := heq2
        subst hray
        subst hatt
        exact ⟨rfl, rfl⟩

/-- Witness for C3: a head-on hit entering a glass with equal indices; the
branch succeeds (no total internal reflection, Schlick reflectance zero). -/
theorem c3_trace_refraction_witness :
    ((traceRefraction ⟨⟨0, 0, 1⟩, ⟨0, 0, -1⟩⟩ 500 ⟨⟨0, 0, 0⟩, ⟨0, 0, 1⟩, 1, .enter, matGlass⟩
          (fun _ => 1 / 2) 0).1 = none ↔
      1 < (refractiveIndexAt ⟨fun _ => 1, fun _ => 1, fun _ => 0⟩ .enter 500).relative ^ 2 *
          (1 - min (-((V3.mk 0 0 1 : V3 ℝ).dot ⟨0, 0, -1⟩)) 1 ^ 2) ∨
        (1 : ℝ) / 2 <
          (refractiveIndexAt ⟨fun _ => 1, fun _ => 1, fun _ => 0⟩ .enter 500).reflectance
            (min (-((V3.mk 0 0 1 : V3 ℝ).dot ⟨0, 0, -1⟩)) 1)) ∧
    (∀ ray att,
      (traceRefraction ⟨⟨0, 0, 1⟩, ⟨0, 0, -1⟩⟩ 500 ⟨⟨0, 0, 0⟩, ⟨0, 0, 1⟩, 1, .enter, matGlass⟩
          (fun _ => 1 / 2) 0).1 = some (ray, att) →
      ray.direction = ((V3.mk 0 0 (-1) : V3 ℝ).smul
            (refractiveIndexAt ⟨fun _ => 1, fun _ => 1, fun _ => 0⟩ .enter 500).relative).add
          ((V3.mk 0 0 1 : V3 ℝ).smul
            ((refractiveIndexAt ⟨fun _ => 1, fun _ => 1, fun _ => 0⟩ .enter 500).relative *
                min (-((V3.mk 0 0 1 : V3 ℝ).dot ⟨0, 0, -1⟩)) 1 -
              Real.sqrt (1 -
                ((refractiveIndexAt ⟨fun _ => 1, fun _ => 1, fun _ => 0⟩ .enter 500).relative *
                    Real.sqrt (1 -
                      min (-((V3.mk 0 0 1 : V3 ℝ).dot ⟨0, 0, -1⟩)) 1 ^ 2)) ^ 2))) ∧
        att = if HitType.enter = HitType.leave then
            Real.exp (-(1 : ℝ) * ((fun _ => (0 : ℝ)) 500))
          else 1) :=
  c3_trace_refraction ⟨⟨0, 0, 1⟩, ⟨0, 0, -1⟩⟩ 500 ⟨⟨0, 0, 0⟩, ⟨0, 0, 1⟩, 1, .enter, matGlass⟩
    (fun _ => 1 / 2) 0 ⟨fun _ => 1, fun _ => 1, fun _ => 0⟩ rfl
    (by norm_num [V3.lengthSquared, V3.dot])
    (by norm_num [V3.lengthSquared, V3.dot])
    (by norm_num [V3.dot])
    (by norm_num)
    (by norm_num)

theorem sqrtFour : Real.sqrt 4 = 2 := by
  rw [show (4 : ℝ) = 2 ^ 2 by norm_num, Real.sqrt_sq (by norm_num : (0 : ℝ) ≤ 2)]

/-- Counterexample to C5 as stated.  With diffusion probability `p = 1/2`
and drawn uniform `u = 1/2` (so `u >= p`), the source branch SUCCEEDS
(`trace_diffusion` fails only on `u > p`), returning the normalized
direction `(0,0,1)` and throughput factor `1/2`; the claim instead
predicts failure at `u >= p`, and — had it succeeded — a factor
`attenuation * |normal + sample| / 2 = 1 * 2 / 2 = 1`, because `Ray::new`
has already normalized the direction whose length the source multiplies
in. -/
theorem c5_diffusion_cex :
    (traceDiffusion ⟨⟨0, 0, 0⟩, ⟨0, 0, 1⟩, 1, .refract, matDiffuse⟩ 500
        (fun _ => 1 / 2) (fun _ => ⟨0, 1⟩) 0 0).1 =
      some (⟨⟨0, 0, 0⟩, ⟨0, 0, 1⟩⟩, 1 / 2) ∧
    ¬((1 : ℝ) / 2 = 1 * ((V3.mk 0 0 1 : V3 ℝ).add ⟨0, 0, 1⟩).length / 2) := by
  constructor
  · norm_num [traceDiffusion, matDiffuse, sampleUnitVector, RayG.make, V3.normalize,
      V3.length, V3.lengthSquared, V3.dot, V3.add, V3.divC, Real.sqrt_zero,
      Real.cos_zero, Real.sin_zero, sqrtFour, Real.sqrt_one]
  · rw [show ((V3.mk 0 0 1 : V3 ℝ).add ⟨0, 0, 1⟩) = ⟨0, 0, 2⟩ by
      norm_num [V3.add]]
    rw [show ((V3.mk 0 0 2 : V3 ℝ)).length = 2 by
      norm_num [V3.length, V3.lengthSquared, V3.dot, sqrtFour]]
    norm_num

/-- C5, amended to the source behavior: the diffusion branch fails exactly
when the material has no reflectance, the reflectance has no diffusion
probability, or the drawn uniform STRICTLY exceeds the probability; on
success the scattered ray is `Ray::new(location, normal + sample_unit_vector)`
(whose stored direction is normalized) and the throughput factor is the
attenuation times the length of that ALREADY NORMALIZED direction, halved.
The scatter chain takes exactly one path per bounce, trying refraction,
then diffusion, then specular reflection. -/
theorem c5_trace_diffusion (hit : Hit) (wavelength : ℝ) (effSeq : ℕ → ℝ)
    (difSeq : ℕ → V2 ℝ) (ke kd : ℕ) :
    ((traceDiffusion hit wavelength effSeq difSeq ke kd).1 = none ↔
      hit.material.reflectance = none ∨
        (∃ refl, hit.material.reflectance = some refl ∧ refl.diffusion = none) ∨
        (∃ refl p, hit.material.reflectance = some refl ∧ refl.diffusion = some p ∧
          p < effSeq ke)) ∧
    (∀ refl p, hit.material.reflectance = some refl → refl.diffusion = some p →
      ¬(p < effSeq ke) →
      (traceDiffusion hit wavelength effSeq difSeq ke kd).1 =
        some (RayG.make hit.location (hit.normal.add (sampleUnitVector (difSeq kd))),
          refl.attenuation wavelength *
            (RayG.make hit.location
              (hit.normal.add (sampleUnitVector (difSeq kd)))).direction.length / 2)) ∧
    (∀ incidentRay ra ke1,
      traceRefraction incidentRay wavelength hit effSeq ke = (some ra, ke1) →
      scatterRay incidentRay wavelength hit effSeq difSeq ke kd = (some ra, ke1, kd)) ∧
    (∀ incidentRay ke1 ra ke2 kd2,
      traceRefraction incidentRay wavelength hit effSeq ke = (none, ke1) →
      traceDiffusion hit wavelength effSeq difSeq ke1 kd = (some ra, ke2, kd2) →
      scatterRay incidentRay wavelength hit effSeq difSeq ke kd = (some ra, ke2, kd2)) ∧
    (∀ incidentRay ke1 ke2 kd2,
      traceRefraction incidentRay wavelength hit effSeq ke = (none, ke1) →
      traceDiffusion hit wavelength effSeq difSeq ke1 kd = (none, ke2, kd2) →
      scatterRay incidentRay wavelength hit effSeq difSeq ke kd =
        (match traceSpecularReflection incidentRay wavelength hit difSeq kd2 with
          | (some ra, kd3) => (some ra, ke2, kd3)
          | (none, kd3) => (none, ke2, kd3))) := by
  refine ⟨?_, ?_, ?_, ?_, ?_⟩
  · rcases href : hit.material.reflectance with _ | refl
    · simp [traceDiffusion, href]
    · rcases hdif : refl.diffusion with _ | p
      · simp [traceDiffusion, href, hdif]
      · by_cases hu : p < effSeq ke
        · simp [traceDiffusion, href, hdif, hu]
        · simp [traceDiffusion, href, hdif, hu]
  · intro refl p h1 h2 h3
    simp [traceDiffusion, h1, h2, h3]
  · intro incidentRay ra ke1 h1
    simp [scatterRay, h1]
  · intro incidentRay ke1 ra ke2 kd2 h1 h2
    simp [scatterRay, h1, h2]
  · intro incidentRay ke1 ke2 kd2 h1 h2
    simp [scatterRay, h1, h2]

/-- Witness for C5 (amended): a successful diffusion with `u = 1/4 < p = 1/2`. -/
theorem c5_trace_diffusion_witness :
    (traceDiffusion ⟨⟨0, 0, 0⟩, ⟨0, 0, 1⟩, 1, .refract, matDiffuse⟩ 500
        (fun _ => 1 / 4) (fun _ => ⟨0, 1⟩) 0 0).1 =
      some (RayG.make ⟨0, 0, 0⟩ ((V3.mk 0 0 1).add (sampleUnitVector ⟨0, 1⟩)),
        (1 : ℝ) *
          (RayG.make ⟨0, 0, 0⟩
            ((V3.mk 0 0 1).add (sampleUnitVector ⟨0, 1⟩))).direction.length / 2) :=
  (c5_trace_diffusion ⟨⟨0, 0, 0⟩, ⟨0, 0, 1⟩, 1, .refract, matDiffuse⟩ 500
      (fun _ => 1 / 4) (fun _ => ⟨0, 1⟩) 0 0).2.1
    ⟨fun _ => 1, none, some (1 / 2)⟩ (1 / 2) rfl rfl (by norm_num)

theorem flux1_eq_emittedTerm (hit : Hit) (flux atten wavelength : ℝ) :
    (if hit.type_ = .enter then
      match hit.material.emittance with
      | some emittance => flux + atten * emittance wavelength
      | none => flux
    else flux) = flux + emittedTerm hit atten wavelength := by
  rw [emittedTerm]
  by_cases ht : hit.type_ = .enter
  · simp only [ht, if_true]
    rcases hit.material.emittance <;> simp
  · simp [ht]

theorem traceRayGo_flux_offset (hitF : RayG ℝ → ℕ → Option Hit × ℕ)
    (sE wavelength minAtt : ℝ) (effSeq : ℕ → ℝ) (difSeq : ℕ → V2 ℝ) :
    ∀ (fuel : ℕ) (ray : RayG ℝ) (flux atten : ℝ) (ke kd : ℕ),
      (traceRayGo hitF sE wavelength minAtt effSeq difSeq fuel ray flux atten ke kd).flux =
        flux +
          (traceRayGo hitF sE wavelength minAtt effSeq difSeq fuel ray 0 atten ke kd).flux := by
  intro fuel
  induction fuel with
  | zero => intro ray flux atten ke kd; simp [traceRayGo]
  | succ n ih =>
    intro ray flux atten ke kd
    by_cases hbr : atten < minAtt
    · simp [traceRayGo, hbr]
    · simp only [traceRayGo]
      rw [if_neg hbr, if_neg hbr]
      rcases hh : hitF ray ke with ⟨oh, ke1⟩
      cases oh with
      | none => simp
      | some hit =>
        simp only
        rcases hs : scatterRay ray wavelength hit effSeq difSeq ke1 kd with ⟨ora, ke2, kd2⟩
        cases ora with
        | none =>
          simp only
          by_cases ht : hit.type_ = .enter
          · simp only [ht, if_true]
            rcases hit.material.emittance with _ | em <;> simp
          · simp [ht]
        | some ra =>
          rcases ra with ⟨r, att⟩
          simp only
          have key : ∀ f1 f2 : ℝ, f1 = flux + f2 →
              (traceRayGo hitF sE wavelength minAtt effSeq difSeq n r f1
                  (atten * att) ke2 kd2).flux =
                flux + (traceRayGo hitF sE wavelength minAtt effSeq difSeq n r f2
                  (atten * att) ke2 kd2).flux := by
            intro f1 f2 hf
            rw [ih r f1 (atten * att) ke2 kd2, ih r f2 (atten * att) ke2 kd2, hf]
            ring
          by_cases ht : hit.type_ = .enter
          · simp only [ht, if_true]
            rcases hit.material.emittance with _ | em
            · simp only
              apply key
              ring
            · simp only
              apply key
              ring
          · simp only [if_neg ht]
            apply key
            ring

theorem traceRayGo_bounces_le (hitF : RayG ℝ → ℕ → Option Hit × ℕ)
    (sE wavelength minAtt : ℝ) (effSeq : ℕ → ℝ) (difSeq : ℕ → V2 ℝ) :
    ∀ (fuel : ℕ) (ray : RayG ℝ) (flux atten : ℝ) (ke kd : ℕ),
      (traceRayGo hitF sE wavelength minAtt effSeq difSeq fuel ray flux atten ke kd).bounces ≤
        fuel := by
  intro fuel
  induction fuel with
  | zero => intro ray flux atten ke kd; simp [traceRayGo]
  | succ n ih =>
    intro ray flux atten ke kd
    by_cases hbr : atten < minAtt
    · simp [traceRayGo, hbr]
    · simp only [traceRayGo]
      rw [if_neg hbr]
      rcases hh : hitF ray ke with ⟨oh, ke1⟩
      cases oh with
      | none => simp
      | some hit =>
        simp only
        rcases hs : scatterRay ray wavelength hit effSeq difSeq ke1 kd with ⟨ora, ke2, kd2⟩
        cases ora with
        | none => simp
        | some ra =>
          rcases ra with ⟨r, att⟩
          simp only
          exact Nat.succ_le_succ (ih r _ (atten * att) ke2 kd2)

/-- C2: the bounce loop of `Tracer::trace_ray` starts from zero radiance
and unit throughput with fuel `n_max_bounces`; it performs at most `fuel`
scatter bounces; it breaks before a bounce as soon as the throughput drops
below the configured minimum, leaving the totals untouched; on a BVH miss
it adds `throughput * ambient_emittance(lambda)` and terminates; and on a
hit the radiance accumulated by the iteration decomposes as the previous
total, plus `throughput * emittance(lambda)` EXACTLY when the hit type is
`Enter` and the material has an emittance (the `emittedTerm`), plus
whatever the continuation of the loop adds. -/
theorem c2_trace_ray_loop (hitF : RayG ℝ → ℕ → Option Hit × ℕ)
    (ambientEmittance : ℝ → ℝ) (wavelength minAttenuation : ℝ) (effSeq : ℕ → ℝ)
    (difSeq : ℕ → V2 ℝ) :
    (∀ nMaxBounces ray,
      traceRay hitF ambientEmittance wavelength nMaxBounces minAttenuation effSeq difSeq ray =
        traceRayGo hitF (ambientEmittance wavelength) wavelength minAttenuation effSeq difSeq
          nMaxBounces ray 0 1 0 0) ∧
    (∀ fuel ray flux atten ke kd,
      (traceRayGo hitF (ambientEmittance wavelength) wavelength minAttenuation effSeq difSeq
        fuel ray flux atten ke kd).bounces ≤ fuel) ∧
    (∀ fuel ray flux atten ke kd, atten < minAttenuation →
      traceRayGo hitF (ambientEmittance wavelength) wavelength minAttenuation effSeq difSeq
        (fuel + 1) ray flux atten ke kd = ⟨flux, ke, kd, 0⟩) ∧
    (∀ fuel ray flux atten ke kd ke1, ¬(atten < minAttenuation) →
      hitF ray ke = (none, ke1) →
      traceRayGo hitF (ambientEmittance wavelength) wavelength minAttenuation effSeq difSeq
        (fuel + 1) ray flux atten ke kd =
        ⟨flux + atten * ambientEmittance wavelength, ke1, kd, 0⟩) ∧
    (∀ fuel ray flux atten ke kd hit ke1, ¬(atten < minAttenuation) →
      hitF ray ke = (some hit, ke1) →
      (traceRayGo hitF (ambientEmittance wavelength) wavelength minAttenuation effSeq difSeq
        (fuel + 1) ray flux atten ke kd).flux =
        flux + emittedTerm hit atten wavelength +
          (match scatterRay ray wavelength hit effSeq difSeq ke1 kd with
           | (none, _, _) => 0
           | (some (r, att), ke2, kd2) =>
             (traceRayGo hitF (ambientEmittance wavelength) wavelength minAttenuation effSeq
               difSeq fuel r 0 (atten * att) ke2 kd2).flux)) := by
  refine ⟨fun _ _ => rfl, traceRayGo_bounces_le _ _ _ _ _ _, ?_, ?_, ?_⟩
  · intro fuel ray flux atten ke kd hbr
    simp [traceRayGo, hbr]
  · intro fuel ray flux atten ke kd ke1 hbr hh
    simp only [traceRayGo]
    rw [if_neg hbr, hh]
  · intro fuel ray flux atten ke kd hit ke1 hbr hh
    simp only [traceRayGo]
    rw [if_neg hbr, hh]
    simp only
    rcases hs : scatterRay ray wavelength hit effSeq difSeq ke1 kd with ⟨ora, ke2, kd2⟩
    cases ora with
    | none =>
      simp only
      rw [flux1_eq_emittedTerm]
      ring
    | some ra =>
      rcases ra with ⟨r, att⟩
      simp only
      rw [traceRayGo_flux_offset, flux1_eq_emittedTerm]

/-- Witness for C2: with an always-missing scene hit function, ambient
value 2 and unit throughput above the default minimum `10^-6`, one
iteration adds the ambient radiance and terminates. -/
theorem c2_trace_ray_loop_witness :
    traceRayGo (fun _ k => (none, k)) ((fun _ => (2 : ℝ)) 500) 500 (1 / 1000000)
        (fun _ => 0) (fun _ => ⟨0, 0⟩) (2 + 1) ⟨⟨0, 0, 0⟩, ⟨0, 0, 1⟩⟩ 0 1 0 0 =
      ⟨0 + 1 * (fun _ => (2 : ℝ)) 500, 0, 0, 0⟩ :=
  (c2_trace_ray_loop (fun _ k => (none, k)) (fun _ => 2) 500 (1 / 1000000)
      (fun _ => 0) (fun _ => ⟨0, 0⟩)).2.2.2.1
    2 ⟨⟨0, 0, 0⟩, ⟨0, 0, 1⟩⟩ 0 1 0 0 0 (by norm_num) rfl

theorem Bvh.newGo_nil [LinearOrderedField α] (aabbF : T → Aabb α) (cap fuel : ℕ) :
    Bvh.newGo aabbF cap (fuel + 1) ([] : List T) = .empty := rfl

theorem Bvh.newGo_leaf [LinearOrderedField α] (aabbF : T → Aabb α) (cap fuel : ℕ)
    (s0 : T) (rest : List T) (h : (s0 :: rest).length ≤ cap) :
    Bvh.newGo aabbF cap (fuel + 1) (s0 :: rest) = .leaf (s0 :: rest) := by
  simp only [Bvh.newGo]
  rw [if_pos h]

theorem Bvh.newGo_node [LinearOrderedField α] (aabbF : T → Aabb α) (cap fuel : ℕ)
    (s0 : T) (rest : List T) (h : ¬((s0 :: rest).length ≤ cap)) :
    Bvh.newGo aabbF cap (fuel + 1) (s0 :: rest) =
      (let box := rest.foldl (fun accumulator s => accumulator.join (aabbF s)) (aabbF s0)
       let size := box.size
       let key : EV3 α → Flt α :=
         if size.y.blt size.x && size.z.blt size.x then fun v => v.x
         else if size.x.blt size.y && size.z.blt size.y then fun v => v.y
         else fun v => v.z
       let sorted := (s0 :: rest).insertionSort
         (fun l r => (key (aabbF l).center).btotalLe (key (aabbF r).center) = true)
       Bvh.node box
         (Bvh.newGo aabbF cap fuel
           (sorted.takeWhile (fun s => (key (aabbF s).center).blt (key box.center))))
         (Bvh.newGo aabbF cap fuel
           (sorted.dropWhile (fun s => (key (aabbF s).center).blt (key box.center))))) := by
  simp only [Bvh.newGo]
  rw [if_neg h]

/-- Counterexample to C6 as stated.  Three boxes with centroids at
`x = 0, 1, 100` and leaf cap 2: the union box is `[0,100] x [0,1] x [0,1]`,
the longest axis is x, and the source splits the sorted slice at the
partition point of the centroid coordinate about the box CENTER `x = 50`
(the code comment says: split by the mean), yielding halves of sizes 2 and
1 — not at the median index `3 / 2 = 1`, which would yield halves of sizes
1 and 2. -/
theorem c6_split_cex :
    (Bvh.new (fun a : Aabb ℚ => a) 2
        [⟨EV3.ofV3 ⟨0, 0, 0⟩, EV3.ofV3 ⟨0, 1, 1⟩⟩,
          ⟨EV3.ofV3 ⟨1, 0, 0⟩, EV3.ofV3 ⟨1, 1, 1⟩⟩,
          ⟨EV3.ofV3 ⟨100, 0, 0⟩, EV3.ofV3 ⟨100, 1, 1⟩⟩] =
      Bvh.node ⟨EV3.ofV3 ⟨0, 0, 0⟩, EV3.ofV3 ⟨100, 1, 1⟩⟩
        (Bvh.leaf [⟨EV3.ofV3 ⟨0, 0, 0⟩, EV3.ofV3 ⟨0, 1, 1⟩⟩,
          ⟨EV3.ofV3 ⟨1, 0, 0⟩, EV3.ofV3 ⟨1, 1, 1⟩⟩])
        (Bvh.leaf [⟨EV3.ofV3 ⟨100, 0, 0⟩, EV3.ofV3 ⟨100, 1, 1⟩⟩])) ∧
    (Bvh.new (fun a : Aabb ℚ => a) 2
        [⟨EV3.ofV3 ⟨0, 0, 0⟩, EV3.ofV3 ⟨0, 1, 1⟩⟩,
          ⟨EV3.ofV3 ⟨1, 0, 0⟩, EV3.ofV3 ⟨1, 1, 1⟩⟩,
          ⟨EV3.ofV3 ⟨100, 0, 0⟩, EV3.ofV3 ⟨100, 1, 1⟩⟩] ≠
      Bvh.node ⟨EV3.ofV3 ⟨0, 0, 0⟩, EV3.ofV3 ⟨100, 1, 1⟩⟩
        (Bvh.leaf [⟨EV3.ofV3 ⟨0, 0, 0⟩, EV3.ofV3 ⟨0, 1, 1⟩⟩])
        (Bvh.leaf [⟨EV3.ofV3 ⟨1, 0, 0⟩, EV3.ofV3 ⟨1, 1, 1⟩⟩,
          ⟨EV3.ofV3 ⟨100, 0, 0⟩, EV3.ofV3 ⟨100, 1, 1⟩⟩])) := by
  have e1 : Bvh.new (fun a : Aabb ℚ => a) 2
      [⟨EV3.ofV3 ⟨0, 0, 0⟩, EV3.ofV3 ⟨0, 1, 1⟩⟩,
        ⟨EV3.ofV3 ⟨1, 0, 0⟩, EV3.ofV3 ⟨1, 1, 1⟩⟩,
        ⟨EV3.ofV3 ⟨100, 0, 0⟩, EV3.ofV3 ⟨100, 1, 1⟩⟩] =
      Bvh.node ⟨EV3.ofV3 ⟨0, 0, 0⟩, EV3.ofV3 ⟨100, 1, 1⟩⟩
        (Bvh.newGo (fun a : Aabb ℚ => a) 2 3
          [⟨EV3.ofV3 ⟨0, 0, 0⟩, EV3.ofV3 ⟨0, 1, 1⟩⟩,
            ⟨EV3.ofV3 ⟨1, 0, 0⟩, EV3.ofV3 ⟨1, 1, 1⟩⟩])
        (Bvh.newGo (fun a : Aabb ℚ => a) 2 3
          [⟨EV3.ofV3 ⟨100, 0, 0⟩, EV3.ofV3 ⟨100, 1, 1⟩⟩]) := by
    rw [Bvh.new]
    rw [show ([(⟨EV3.ofV3 ⟨0, 0, 0⟩, EV3.ofV3 ⟨0, 1, 1⟩⟩ : Aabb ℚ),
        ⟨EV3.ofV3 ⟨1, 0, 0⟩, EV3.ofV3 ⟨1, 1, 1⟩⟩,
        ⟨EV3.ofV3 ⟨100, 0, 0⟩, EV3.ofV3 ⟨100, 1, 1⟩⟩].length + 1) = 3 + 1 from rfl]
    rw [Bvh.newGo_node _ _ _ _ _ (by norm_num)]
    norm_num [Aabb.join, EV3.fmin, EV3.fmax, Flt.fmin, Flt.fmax, Flt.blt, Aabb.size,
      EV3.subE, Flt.sub, Aabb.center, EV3.addE, EV3.divC, Flt.add, Flt.divF, EV3.ofV3,
      List.insertionSort, List.orderedInsert, Flt.btotalLe, Flt.ble, List.takeWhile,
      List.dropWhile, Bool.and_eq_true, decide_eq_true_eq]
  have e2 : Bvh.newGo (fun a : Aabb ℚ => a) 2 3
      [⟨EV3.ofV3 ⟨0, 0, 0⟩, EV3.ofV3 ⟨0, 1, 1⟩⟩,
        ⟨EV3.ofV3 ⟨1, 0, 0⟩, EV3.ofV3 ⟨1, 1, 1⟩⟩] =
      Bvh.leaf [⟨EV3.ofV3 ⟨0, 0, 0⟩, EV3.ofV3 ⟨0, 1, 1⟩⟩,
        ⟨EV3.ofV3 ⟨1, 0, 0⟩, EV3.ofV3 ⟨1, 1, 1⟩⟩] := by
    rw [show (3 : ℕ) = 2 + 1 from rfl]
    exact Bvh.newGo_leaf _ _ _ _ _ (by norm_num)
  have e3 : Bvh.newGo (fun a : Aabb ℚ => a) 2 3
      [⟨EV3.ofV3 ⟨100, 0, 0⟩, EV3.ofV3 ⟨100, 1, 1⟩⟩] =
      Bvh.leaf [⟨EV3.ofV3 ⟨100, 0, 0⟩, EV3.ofV3 ⟨100, 1, 1⟩⟩] := by
    rw [show (3 : ℕ) = 2 + 1 from rfl]
    exact Bvh.newGo_leaf _ _ _ _ _ (by norm_num)
  rw [e1, e2, e3]
  refine ⟨rfl, ?_⟩
  intro hcontra
  have := hcontra
  injection this with h1 h2 h3
  injection h2 with h4
  simp at h4

/-- C6, amended to the source behavior of `Bvh::new`: an empty slice gives
the empty tree; a slice within the leaf cap becomes one leaf holding the
whole slice; otherwise the build folds the union box, keys on the axis
whose extent is STRICTLY larger than both others (falling back to z on
ties), sorts by the centroid key under the `total_cmp` order, and splits
at the partition point of the predicate `centroid key < key of the union
box center` — the mean, not the median index — before recursing on both
halves with one unit of fuel less. -/
theorem c6_build [LinearOrderedField α] (aabbF : T → Aabb α) (cap fuel : ℕ) :
    (Bvh.newGo aabbF cap (fuel + 1) ([] : List T) = .empty) ∧
    (∀ (s0 : T) (rest : List T), (s0 :: rest).length ≤ cap →
      Bvh.newGo aabbF cap (fuel + 1) (s0 :: rest) = .leaf (s0 :: rest)) ∧
    (∀ (s0 : T) (rest : List T), ¬((s0 :: rest).length ≤ cap) →
      Bvh.newGo aabbF cap (fuel + 1) (s0 :: rest) =
        (let box := rest.foldl (fun accumulator s => accumulator.join (aabbF s)) (aabbF s0)
         let size := box.size
         let key : EV3 α → Flt α :=
           if size.y.blt size.x && size.z.blt size.x then fun v => v.x
           else if size.x.blt size.y && size.z.blt size.y then fun v => v.y
           else fun v => v.z
         let sorted := (s0 :: rest).insertionSort
           (fun l r => (key (aabbF l).center).btotalLe (key (aabbF r).center) = true)
         Bvh.node box
           (Bvh.newGo aabbF cap fuel
             (sorted.takeWhile (fun s => (key (aabbF s).center).blt (key box.center))))
           (Bvh.newGo aabbF cap fuel
             (sorted.dropWhile (fun s => (key (aabbF s).center).blt (key box.center)))))) :=
  ⟨Bvh.newGo_nil aabbF cap fuel, fun s0 rest h => Bvh.newGo_leaf aabbF cap fuel s0 rest h,
    fun s0 rest h => Bvh.newGo_node aabbF cap fuel s0 rest h⟩

/-- Witness for C6 (amended): two boxes under the leaf cap give a leaf. -/
theorem c6_build_witness :
    Bvh.newGo (fun a : Aabb ℚ => a) 2 (3 + 1)
        [⟨EV3.ofV3 ⟨0, 0, 0⟩, EV3.ofV3 ⟨0, 1, 1⟩⟩,
          ⟨EV3.ofV3 ⟨1, 0, 0⟩, EV3.ofV3 ⟨1, 1, 1⟩⟩] =
      Bvh.leaf [⟨EV3.ofV3 ⟨0, 0, 0⟩, EV3.ofV3 ⟨0, 1, 1⟩⟩,
        ⟨EV3.ofV3 ⟨1, 0, 0⟩, EV3.ofV3 ⟨1, 1, 1⟩⟩] :=
  (c6_build (fun a : Aabb ℚ => a) 2 3).2.1 ⟨EV3.ofV3 ⟨0, 0, 0⟩, EV3.ofV3 ⟨0, 1, 1⟩⟩
    [⟨EV3.ofV3 ⟨1, 0, 0⟩, EV3.ofV3 ⟨1, 1, 1⟩⟩] (by norm_num)

theorem iteMinLeft_eq_min [LinearOrder α] (x y : α) : (if y < x then y else x) = min x y := by
  rcases le_or_lt x y with h | h
  · rw [if_neg (not_lt.mpr h), min_eq_left h]
  · rw [if_pos h, min_eq_right (le_of_lt h)]

theorem iteMinRight_eq_min [LinearOrder α] (x y : α) : (if x < y then x else y) = min x y := by
  rcases le_or_lt y x with h | h
  · rw [if_neg (not_lt.mpr h), min_eq_right h]
  · rw [if_pos h, min_eq_left (le_of_lt h)]

theorem combineMin_some_some [LinearOrder α] (x y : α) :
    combineMin (some x) (some y) = some (min x y) := by
  rw [combineMin, iteMinLeft_eq_min]

theorem nodeMerge_eq_combineMin [LinearOrder α] (a b : Option α) :
    nodeMerge a b = combineMin a b := by
  cases a <;> cases b <;> simp [nodeMerge, combineMin]
  rw [iteMinRight_eq_min, iteMinLeft_eq_min]

theorem combineMin_none_left [LinearOrder α] (b : Option α) : combineMin none b = b := by
  cases b <;> rfl

theorem combineMin_none_right [LinearOrder α] (a : Option α) : combineMin a none = a := by
  cases a <;> rfl

theorem combineMin_assoc [LinearOrder α] (a b c : Option α) :
    combineMin a (combineMin b c) = combineMin (combineMin a b) c := by
  cases a <;> cases b <;> cases c <;>
    simp [combineMin_none_left, combineMin_none_right, combineMin_some_some, min_assoc]

theorem scanHits_append [LinearOrder α] (ray : RayG α) (range : DRange α)
    (l1 l2 : List (QSurf α σ)) :
    ∀ s, scanHits ray range (l1 ++ l2) s =
      (combineMin (scanHits ray range l1 s).1
          (scanHits ray range l2 (scanHits ray range l1 s).2).1,
        (scanHits ray range l2 (scanHits ray range l1 s).2).2) := by
  induction l1 with
  | nil =>
    intro s
    simp [scanHits, combineMin_none_left]
  | cons q rest ih =>
    intro s
    have e1 : scanHits ray range ((q :: rest) ++ l2) s =
        (combineMin (q.hitD ray range s).1
            (scanHits ray range (rest ++ l2) (q.hitD ray range s).2).1,
          (scanHits ray range (rest ++ l2) (q.hitD ray range s).2).2) := rfl
    have e2 : scanHits ray range (q :: rest) s =
        (combineMin (q.hitD ray range s).1
            (scanHits ray range rest (q.hitD ray range s).2).1,
          (scanHits ray range rest (q.hitD ray range s).2).2) := rfl
    rw [e1, ih, e2]
    dsimp only
    rw [combineMin_assoc]

theorem scanHits_all_none [LinearOrder α] (ray : RayG α) (range : DRange α)
    (l : List (QSurf α σ))
    (h : ∀ q ∈ l, ∀ s, q.hitD ray range s = (none, s)) :
    ∀ s, scanHits ray range l s = (none, s) := by
  induction l with
  | nil => intro s; rfl
  | cons q rest ih =>
    intro s
    simp only [scanHits]
    rw [h q (by simp)]
    dsimp only
    rw [ih (fun p hp s2 => h p (by simp [hp]) s2)]
    rfl

theorem EV3.noNan_x {v : EV3 α} (h : v.noNan = true) : v.x ≠ .nan := by
  cases hx : v.x <;> simp_all [EV3.noNan, Flt.isNan]

theorem EV3.noNan_y {v : EV3 α} (h : v.noNan = true) : v.y ≠ .nan := by
  cases hy : v.y <;> simp_all [EV3.noNan, Flt.isNan]

theorem EV3.noNan_z {v : EV3 α} (h : v.noNan = true) : v.z ≠ .nan := by
  cases hz : v.z <;> simp_all [EV3.noNan, Flt.isNan]

theorem Aabb.bsub_refl [LinearOrderedField α] {a : Aabb α} (h : a.noNan = true) :
    Aabb.bsub a a = true := by
  have h1 : a.minPoint.noNan = true := by
    simp only [Aabb.noNan, Bool.and_eq_true] at h; exact h.1
  have h2 : a.maxPoint.noNan = true := by
    simp only [Aabb.noNan, Bool.and_eq_true] at h; exact h.2
  simp only [Aabb.bsub, Bool.and_eq_true]
  exact ⟨⟨⟨⟨⟨Flt.ble_self (EV3.noNan_x h1), Flt.ble_self (EV3.noNan_y h1)⟩,
    Flt.ble_self (EV3.noNan_z h1)⟩, Flt.ble_self (EV3.noNan_x h2)⟩,
    Flt.ble_self (EV3.noNan_y h2)⟩, Flt.ble_self (EV3.noNan_z h2)⟩

theorem Aabb.bsub_join_left [LinearOrderedField α] {a b c : Aabb α}
    (h : Aabb.bsub a b = true) : Aabb.bsub a (b.join c) = true := by
  simp only [Aabb.bsub, Bool.and_eq_true] at h ⊢
  obtain ⟨⟨⟨⟨⟨h1, h2⟩, h3⟩, h4⟩, h5⟩, h6⟩ := h
  exact ⟨⟨⟨⟨⟨Flt.ble_fmin_left h1, Flt.ble_fmin_left h2⟩, Flt.ble_fmin_left h3⟩,
    Flt.ble_fmax_left h4⟩, Flt.ble_fmax_left h5⟩, Flt.ble_fmax_left h6⟩

theorem Aabb.bsub_join_right [LinearOrderedField α] {a b c : Aabb α}
    (h : Aabb.bsub a c = true) : Aabb.bsub a (b.join c) = true := by
  simp only [Aabb.bsub, Bool.and_eq_true] at h ⊢
  obtain ⟨⟨⟨⟨⟨h1, h2⟩, h3⟩, h4⟩, h5⟩, h6⟩ := h
  exact ⟨⟨⟨⟨⟨Flt.ble_fmin_right h1, Flt.ble_fmin_right h2⟩, Flt.ble_fmin_right h3⟩,
    Flt.ble_fmax_right h4⟩, Flt.ble_fmax_right h5⟩, Flt.ble_fmax_right h6⟩

theorem Aabb.bsub_foldl_acc [LinearOrderedField α] (aabbF : T → Aabb α) {a : Aabb α} :
    ∀ (l : List T) (acc : Aabb α), Aabb.bsub a acc = true →
      Aabb.bsub a (l.foldl (fun accumulator s => accumulator.join (aabbF s)) acc) = true := by
  intro l
  induction l with
  | nil => intro acc h; exact h
  | cons x rest ih =>
    intro acc h
    simp only [List.foldl_cons]
    exact ih (acc.join (aabbF x)) (Aabb.bsub_join_left h)

theorem Aabb.bsub_foldl_mem [LinearOrderedField α] (aabbF : T → Aabb α) :
    ∀ (l : List T) (acc : Aabb α) (q : T), q ∈ l → (aabbF q).noNan = true →
      Aabb.bsub (aabbF q)
        (l.foldl (fun accumulator s => accumulator.join (aabbF s)) acc) = true := by
  intro l
  induction l with
  | nil => intro acc q hq; exact absurd hq (List.not_mem_nil q)
  | cons x rest ih =>
    intro acc q hq hnan
    simp only [List.foldl_cons]
    rcases List.mem_cons.mp hq with rfl | hmem
    · exact Aabb.bsub_foldl_acc aabbF rest (acc.join (aabbF q))
        (Aabb.bsub_join_right (Aabb.bsub_refl hnan))
    · exact ih (acc.join (aabbF x)) q hmem hnan

theorem Bvh.mem_flat_newGo [LinearOrderedField α] (aabbF : T → Aabb α) (cap : ℕ) :
    ∀ (fuel : ℕ) (l : List T) (q : T), q ∈ (Bvh.newGo aabbF cap fuel l).flat → q ∈ l := by
  intro fuel
  induction fuel with
  | zero => intro l q hq; exact hq
  | succ n ih =>
    intro l q hq
    cases l with
    | nil => rw [Bvh.newGo_nil] at hq; exact absurd hq (List.not_mem_nil q)
    | cons s0 rest =>
      by_cases hlen : (s0 :: rest).length ≤ cap
      · rw [Bvh.newGo_leaf aabbF cap n s0 rest hlen] at hq
        exact hq
      · rw [Bvh.newGo_node aabbF cap n s0 rest hlen] at hq
        simp only [Bvh.flat, List.mem_append] at hq
        rcases hq with hq | hq
        · exact (List.mem_insertionSort _).mp
            ((List.takeWhile_sublist _).subset (ih _ q hq))
        · exact (List.mem_insertionSort _).mp
            ((List.dropWhile_sublist _).subset (ih _ q hq))

theorem Bvh.flat_newGo_perm [LinearOrderedField α] (aabbF : T → Aabb α) (cap : ℕ) :
    ∀ (fuel : ℕ) (l : List T), ((Bvh.newGo aabbF cap fuel l).flat).Perm l := by
  intro fuel
  induction fuel with
  | zero => intro l; exact List.Perm.refl l
  | succ n ih =>
    intro l
    cases l with
    | nil => rw [Bvh.newGo_nil]; exact List.Perm.refl _
    | cons s0 rest =>
      by_cases hlen : (s0 :: rest).length ≤ cap
      · rw [Bvh.newGo_leaf aabbF cap n s0 rest hlen]
        exact List.Perm.refl _
      · rw [Bvh.newGo_node aabbF cap n s0 rest hlen]
        simp only [Bvh.flat]
        refine List.Perm.trans (List.Perm.append (ih _) (ih _)) ?_
        rw [List.takeWhile_append_dropWhile]
        exact List.perm_insertionSort _ _

theorem Bvh.covered_newGo [LinearOrderedField α] {σ : Type} (cap : ℕ) :
    ∀ (fuel : ℕ) (l : List (QSurf α σ)), (∀ q ∈ l, (QSurf.aabb q).noNan = true) →
      Bvh.Covered (Bvh.newGo QSurf.aabb cap fuel l) := by
  intro fuel
  induction fuel with
  | zero => intro l _; exact trivial
  | succ n ih =>
    intro l hnan
    cases l with
    | nil => rw [Bvh.newGo_nil]; exact trivial
    | cons s0 rest =>
      by_cases hlen : (s0 :: rest).length ≤ cap
      · rw [Bvh.newGo_leaf QSurf.aabb cap n s0 rest hlen]; exact trivial
      · rw [Bvh.newGo_node QSurf.aabb cap n s0 rest hlen]
        refine ⟨?_, ?_, ?_⟩
        · intro q hq
          have hmem : q ∈ (s0 :: rest) := by
            simp only [List.mem_append] at hq
            rcases hq with hq | hq
            · exact (List.mem_insertionSort _).mp
                ((List.takeWhile_sublist _).subset (Bvh.mem_flat_newGo _ _ _ _ q hq))
            · exact (List.mem_insertionSort _).mp
                ((List.dropWhile_sublist _).subset (Bvh.mem_flat_newGo _ _ _ _ q hq))
          rcases List.mem_cons.mp hmem with rfl | hmem2
          · exact Aabb.bsub_foldl_acc QSurf.aabb rest (QSurf.aabb q)
              (Aabb.bsub_refl (hnan q hmem))
          · exact Aabb.bsub_foldl_mem QSurf.aabb rest (QSurf.aabb s0) q hmem2 (hnan q hmem)
        · exact ih _ (fun q hq => hnan q ((List.mem_insertionSort _).mp
            ((List.takeWhile_sublist _).subset hq)))
        · exact ih _ (fun q hq => hnan q ((List.mem_insertionSort _).mp
            ((List.dropWhile_sublist _).subset hq)))

theorem Bvh.hitQ_eq_scanHits [LinearOrderedField α] {σ : Type} (ray : RayG α)
    (range : DRange α) :
    ∀ (t : Bvh (QSurf α σ) α), Bvh.Covered t →
      (∀ q ∈ t.flat, ∀ B : Aabb α, Aabb.bsub q.aabb B = true → B.hit ray range = none →
        ∀ s, q.hitD ray range s = (none, s)) →
      ∀ s, Bvh.hitQ ray range t s = scanHits ray range t.flat s := by
  intro t
  induction t with
  | empty => intro _ _ s; rfl
  | leaf surfaces => intro _ _ s; rfl
  | node box left right ihl ihr =>
    intro hcov hsound s
    obtain ⟨hcover, hcl, hcr⟩ := hcov
    have hsl : ∀ q ∈ left.flat, ∀ B : Aabb α, Aabb.bsub q.aabb B = true →
        B.hit ray range = none → ∀ s2, q.hitD ray range s2 = (none, s2) := by
      intro q hq
      exact hsound q (by simp [Bvh.flat, List.mem_append, hq])
    have hsr : ∀ q ∈ right.flat, ∀ B : Aabb α, Aabb.bsub q.aabb B = true →
        B.hit ray range = none → ∀ s2, q.hitD ray range s2 = (none, s2) := by
      intro q hq
      exact hsound q (by simp [Bvh.flat, List.mem_append, hq])
    by_cases hbox : (box.hit ray range).isSome = true
    · have e1 : Bvh.hitQ ray range (Bvh.node box left right) s =
          (nodeMerge (Bvh.hitQ ray range left s).1
              (Bvh.hitQ ray range right (Bvh.hitQ ray range left s).2).1,
            (Bvh.hitQ ray range right (Bvh.hitQ ray range left s).2).2) := by
        simp only [Bvh.hitQ]
        rw [if_pos hbox]
      rw [e1, ihl hcl hsl, ihr hcr hsr, nodeMerge_eq_combineMin]
      rw [show (Bvh.node box left right).flat = left.flat ++ right.flat from rfl]
      rw [scanHits_append]
    · have hb : box.hit ray range = none := by
        rcases h : box.hit ray range with _ | v
        · rfl
        · rw [h] at hbox; exact absurd rfl hbox
      have e1 : Bvh.hitQ ray range (Bvh.node box left right) s = (none, s) := by
        simp only [Bvh.hitQ]
        rw [if_neg hbox]
      rw [e1]
      have hall : ∀ q ∈ (Bvh.node box left right).flat, ∀ s2,
          q.hitD ray range s2 = (none, s2) := by
        intro q hq s2
        exact hsound q hq box (hcover q hq) hb s2
      exact (scanHits_all_none ray range _ hall s).symm

/-- C1: on a BVH built by `Bvh::new` from a slice of abstract surfaces
whose boxes have no NaN coordinate and whose hit functions are consistent
with their bounding boxes (a surface inside a box missed by the slab test
reports no hit and consumes no sample), the query of `Bvh::hit` returns
exactly the result — the same minimal hit distance, or `none` exactly when
the scan finds nothing — and the same final sample-stream state as the
linear minimum-distance scan over the underlying (permuted) slice, for
every ray, every distance range and an identical sample stream; moreover
the underlying slice of the built tree is a permutation of the input
slice. -/
theorem c1_bvh_hit_eq_linear_scan [LinearOrderedField α] {σ : Type} (ray : RayG α)
    (range : DRange α) (surfaces : List (QSurf α σ)) (cap : ℕ)
    (hnan : ∀ q ∈ surfaces, (QSurf.aabb q).noNan = true)
    (hsound : ∀ q ∈ surfaces, ∀ B : Aabb α, Aabb.bsub q.aabb B = true →
      B.hit ray range = none → ∀ s, q.hitD ray range s = (none, s)) (s0 : σ) :
    Bvh.hitQ ray range (Bvh.new QSurf.aabb cap surfaces) s0 =
      scanHits ray range (Bvh.new QSurf.aabb cap surfaces).flat s0 ∧
    ((Bvh.new QSurf.aabb cap surfaces).flat).Perm surfaces := by
  constructor
  · apply Bvh.hitQ_eq_scanHits
    · exact Bvh.covered_newGo cap _ surfaces hnan
    · intro q hq
      exact hsound q (Bvh.mem_flat_newGo QSurf.aabb cap _ surfaces q hq)
  · exact Bvh.flat_newGo_perm QSurf.aabb cap _ surfaces

/-- Witness for C1: two never-hitting surfaces with disjoint unit boxes,
leaf cap 1 (so the tree is a proper node), a concrete ray and the full
positive range. -/
theorem c1_bvh_hit_eq_linear_scan_witness :
    Bvh.hitQ (⟨⟨0, 0, 0⟩, ⟨1, 0, 0⟩⟩ : RayG ℚ) ⟨.fin 0, .pinf⟩
        (Bvh.new QSurf.aabb 1 qsurfPair) (0 : ℕ) =
      scanHits (⟨⟨0, 0, 0⟩, ⟨1, 0, 0⟩⟩ : RayG ℚ) ⟨.fin 0, .pinf⟩
        (Bvh.new QSurf.aabb 1 qsurfPair).flat 0 ∧
    ((Bvh.new QSurf.aabb 1 qsurfPair).flat).Perm qsurfPair :=
  c1_bvh_hit_eq_linear_scan (⟨⟨0, 0, 0⟩, ⟨1, 0, 0⟩⟩ : RayG ℚ) ⟨.fin 0, .pinf⟩
    qsurfPair 1
    (by intro q hq
        simp only [qsurfPair, List.mem_cons, List.not_mem_nil, or_false] at hq
        rcases hq with rfl | rfl <;> decide)
    (by intro q hq B hB hnone s
        simp only [qsurfPair, List.mem_cons, List.not_mem_nil, or_false] at hq
        rcases hq with rfl | rfl <;> rfl) 0
